import Mathlib

/-!
Verification of the EWSX archive core (`ewsx.py` + `unzip.py`) of the
EW-Automate repository, as a shallow embedding in Lean 4.

Modelling conventions:
* Bytes are `List Nat`; file paths are lists of path segments (`List String`).
  A Python path string such as `"media/song.mp3"` is represented by its
  '/'-split segment list `["media", "song.mp3"]`; a trailing path separator
  appears as a final empty segment (`"media/"` is `["media", ""]`).
* The filesystem is a flat association list from absolute, normalized segment
  paths to entries (`dir` or `file bytes`); the root directory is `[]` and is
  always present implicitly.  `os.makedirs(..., exist_ok=True)` walks the
  lexical components of its argument (resolving `.` and `..` as the kernel
  does on a symlink-free tree), creating each missing component as a
  directory and failing if a regular file is in the way.  `open(p, "wb+")`
  requires the parent of `p` to exist as a directory, fails if `p` itself is
  a directory, and otherwise (over)writes the file.
* Exceptions are `Except`/`Option`; for the extraction loop the state at the
  moment an uncaught exception escapes is carried in the `error` branch.
* Per-entry decompression/write failures inside the `try` block of
  `ExpandEWSXFile` are modelled by a `corrupt` oracle field on zip entries.
* Enumeration order of `os.walk`/`os.listdir` is filesystem dependent; the
  model enumerates association-list insertion order.  Claims proved about
  walk results are stated at the level of sets (membership), not order.
* The host platform is modelled as non-Darwin POSIX (the `platform.system()
  == "Darwin"` branch of `ExpandEWSXFile` is the identity there).
-/

namespace EWAutomate

abbrev Bytes := List Nat
abbrev RPath := List String

/-! ### `unzip.is_directory` (src/unzip.py lines 10-16) -/

/-- Python `str.endswith`.  (Defined on the character list so that it is
kernel-computable.) -/
def strEndsWith (s suffix : String) : Bool :=
  suffix.data.isSuffixOf s.data

/-- Python `str.startswith`. -/
def strStartsWith (s pre : String) : Bool :=
  pre.data.isPrefixOf s.data

/-- Python `c in s` for a single character. -/
def strContainsChar (s : String) (c : Char) : Bool :=
  s.data.contains c

/-- `os.path.basename` (POSIX): the part after the final `/`. -/
def basename (name : String) : String :=
  String.mk ((name.data.reverse.takeWhile (fun c => c ≠ '/')).reverse)

/-- `unzip.is_directory`: a name denotes a directory when it ends with a
path separator or its final component has no `.` in it. -/
def is_directory (name : String) : Bool :=
  if strEndsWith name "/" || strEndsWith name "\\" then true
  else if strContainsChar (basename name) '.' then false
  else true

/-- `is_directory`, acting on a name already split into `/`-segments (the
final segment is the `os.path.basename`; a trailing separator shows up as a
final empty segment, so `endsWith "/"` becomes "last segment is empty"). -/
def is_directoryN (n : RPath) : Bool :=
  let b := n.getLastD ""
  if b = "" || strEndsWith b "\\" then true
  else if strContainsChar b '.' then false
  else true

/-- Rebuild the path string from its segments (inverse of splitting on `/`). -/
def nameString : RPath → String
  | [] => ""
  | [s] => s
  | s :: rest => s ++ "/" ++ nameString rest

/-! ### Filesystem model -/

inductive FsEntry where
  | dir : FsEntry
  | file : Bytes → FsEntry
deriving DecidableEq

/-- A flat filesystem: association list from normalized absolute paths to
entries.  Keys are unique (an invariant of every operation below). -/
abbrev World := List (RPath × FsEntry)

def findFs : World → RPath → Option FsEntry
  | [], _ => none
  | (q, e) :: w, p => if q = p then some e else findFs w p

def setFs : World → RPath → FsEntry → World
  | [], p, e => [(p, e)]
  | (q, e') :: w, p, e => if q = p then (p, e) :: w else (q, e') :: setFs w p e

/-- One lexical path-resolution step, as the kernel resolves a component of a
path on a symlink-free tree: `""` and `"."` are no-ops, `".."` moves up. -/
def normStep (cur : RPath) (s : String) : RPath :=
  if s = "" || s = "." then cur
  else if s = ".." then cur.dropLast
  else cur ++ [s]

/-- Resolve the path string whose segments are `segs`, interpreted relative
to `base` (`os.path.join(base, ...)` followed by kernel-side resolution). -/
def resolvePath (base : RPath) (segs : List String) : RPath :=
  segs.foldl normStep base

/-- `os.path.join(base, name)` on '/'-separated segment lists: when `name`
is absolute — its string starts with `/`, i.e. its first segment is empty
and a second segment exists — `posixpath.join` discards `base` entirely;
otherwise the segments concatenate. -/
def pyJoin (base : RPath) (name : RPath) : RPath :=
  if name.headD " " = "" ∧ 2 ≤ name.length then name else base ++ name

theorem pyJoin_rel (base : RPath) (name : RPath) (h : name.headD " " ≠ "") :
    pyJoin base name = base ++ name := by
  rw [pyJoin, if_neg (fun hc => h hc.1)]

/-- Ensure a single directory exists (`exist_ok=True`): fails iff a regular
file occupies the path. -/
def ensureDir (w : World) (p : RPath) : Except World World :=
  if p = [] then .ok w
  else
    match findFs w p with
    | some .dir => .ok w
    | some (.file _) => .error w
    | none => .ok (setFs w p .dir)

/-- `os.makedirs(path, exist_ok=True)`: walk the lexical components of the
path, creating each missing one.  On failure the partially-modified world is
carried in the error. -/
def makedirs (w : World) (cur : RPath) : List String → Except World World
  | [] => .ok w
  | s :: rest =>
    let cur' := normStep cur s
    match ensureDir w cur' with
    | .error w' => .error w'
    | .ok w' => makedirs w' cur' rest

/-- `open(p, "wb+")` followed by a full write: the parent directory must
exist, the target must not be a directory; overwrites an existing file. -/
def writeFile (w : World) (p : RPath) (b : Bytes) : Option World :=
  if p = [] then none
  else if p.dropLast = [] ∨ findFs w p.dropLast = some .dir then
    match findFs w p with
    | some .dir => none
    | _ => some (setFs w p (.file b))
  else none

/-! ### `unzip.ExpandEWSXFile` (src/unzip.py lines 20-39) -/

/-- One zip entry: its name (as segments) and decompressed data.  `corrupt`
is the oracle for "decompressing or writing this entry raises". -/
structure ZEntry where
  name : RPath
  data : Bytes
  corrupt : Bool := false
deriving DecidableEq

structure ExpandState where
  world : World
  log : List String
deriving DecidableEq

def errMsg (n : RPath) : String :=
  "Error extracting " ++ nameString n

/-- One iteration of the entry loop of `ExpandEWSXFile` (non-Darwin host):
directory-classified names get `os.makedirs(out_path, exist_ok=True)`;
otherwise the parent is created with `os.makedirs(os.path.dirname(out_path),
exist_ok=True)` (both uncaught), and then the decompress-and-write step runs
inside `try`, so its failure only appends to the log. -/
def expandStep (outDir : RPath) (st : ExpandState) (e : ZEntry) :
    Except ExpandState ExpandState :=
  if is_directoryN e.name then
    match makedirs st.world [] (pyJoin outDir e.name) with
    | .error w => .error { st with world := w }
    | .ok w => .ok { st with world := w }
  else
    match makedirs st.world [] ((pyJoin outDir e.name).dropLast) with
    | .error w => .error { st with world := w }
    | .ok w =>
      if e.corrupt then .ok { world := w, log := st.log ++ [errMsg e.name] }
      else
        match writeFile w (resolvePath [] (pyJoin outDir e.name)) e.data with
        | none => .ok { world := w, log := st.log ++ [errMsg e.name] }
        | some w' => .ok { world := w', log := st.log }

/-- The entry loop of `ExpandEWSXFile`; the `error` branch carries the state
at the moment an uncaught exception escapes the loop. -/
def expandEntries (outDir : RPath) (st : ExpandState) :
    List ZEntry → Except ExpandState ExpandState
  | [] => .ok st
  | e :: es =>
    match expandStep outDir st e with
    | .error st' => .error st'
    | .ok st' => expandEntries outDir st' es

/-- `ExpandEWSXFile(filepath, output_dir)` run on world `w`: extract every
entry of the (already parsed) zip into `outDir`. -/
def ExpandEWSXFileRun (z : List ZEntry) (w : World) (outDir : RPath) :
    Except ExpandState ExpandState :=
  expandEntries outDir ⟨w, []⟩ z

/-- The state an `Except`-carried computation ends in, whether or not an
exception escaped. -/
def finalState : Except ExpandState ExpandState → ExpandState
  | .ok st => st
  | .error st => st

/-! ### Walking a directory tree (`os.walk`) -/

/-- All files strictly below `root`, with paths relative to `root` (what the
`os.walk` loop of `from_file`/`save` collects). -/
def filesUnder (w : World) (root : RPath) : List (RPath × Bytes) :=
  w.filterMap fun pe =>
    match pe.2 with
    | .file b =>
      if root <+: pe.1 ∧ pe.1 ≠ root then some (pe.1.drop root.length, b)
      else none
    | .dir => none

/-- All directories strictly below `root`, with paths relative to `root`. -/
def dirsUnder (w : World) (root : RPath) : List RPath :=
  w.filterMap fun pe =>
    match pe.2 with
    | .dir =>
      if root <+: pe.1 ∧ pe.1 ≠ root then some (pe.1.drop root.length)
      else none
    | .file _ => none

/-- The names of the direct children of `p` (`os.listdir`). -/
def listdirNames (w : World) (p : RPath) : List String :=
  w.filterMap fun qe =>
    if qe.1.dropLast = p ∧ qe.1 ≠ p then some (qe.1.getLastD "") else none

/-! ### `EWSXFIle` (src/ewsx.py) -/

/-- The archive object.  `__init__` only sets `existing_file = None`; the
`files_list`/`dirs_list` attributes appear when `from_file` runs, so a fresh
object's lists are modelled as empty. -/
structure EWSXFIle where
  existing_file : Option String := none
  files_list : List (RPath × Bytes) := []
  dirs_list : List String := []
deriving DecidableEq

/-- `Create()` (src/ewsx.py lines 114-116): just constructs the object. -/
def Create : EWSXFIle := {}

/-- `Create()` run against a world in which the bundled template file may or
may not exist: the function body performs no file access at all, so the
result does not depend on `templateExists`. -/
def createRun (_templateExists : Bool) : Except Unit EWSXFIle :=
  .ok Create

/-- `EWSXFIle.from_file` (src/ewsx.py lines 37-52), pure core: extract the
zip into a fresh temporary directory (here the root of an empty world), then
walk it, collecting every file's relative path and bytes into `files_list`
and every directory's base name into `dirs_list`.  An uncaught extraction
error propagates. -/
def from_file (z : List ZEntry) (filename : String) : Except Unit EWSXFIle :=
  match expandEntries [] ⟨[], []⟩ z with
  | .error _ => .error ()
  | .ok st =>
    .ok { existing_file := some filename
          files_list := filesUnder st.world []
          dirs_list := (dirsUnder st.world []).map (fun p => p.getLastD "") }

/-- Remove a whole tree (`TemporaryDirectory` cleanup ≈ `shutil.rmtree`). -/
def rmTree (w : World) (t : RPath) : World :=
  w.filter fun pe => decide (¬ t <+: pe.1)

/-- `EWSXFIle.from_file` with the temporary directory made explicit: `with
tempfile.TemporaryDirectory() as output_dir` creates a fresh directory `t`,
runs the body, and removes the tree again on every exit path (the context
manager is a try/finally).  `z = none` models `zipfile.ZipFile` raising
`BadZipFile` on an invalid archive. -/
def fromFileRun (z : Option (List ZEntry)) (w : World) (t : RPath)
    (filename : String) : Except Unit EWSXFIle × World :=
  let w₁ := setFs w t .dir
  match z with
  | none => (.error (), rmTree w₁ t)
  | some es =>
    match expandEntries t ⟨w₁, []⟩ es with
    | .error st => (.error (), rmTree st.world t)
    | .ok st =>
      (.ok { existing_file := some filename
             files_list := filesUnder st.world t
             dirs_list := (dirsUnder st.world t).map (fun p => p.getLastD "") },
       rmTree st.world t)

/-! ### `EWSXFIle.save` (src/ewsx.py lines 14-35) -/

/-- `zipfile.ZIP_DEFLATED`. -/
def ZIP_DEFLATED : Nat := 8

structure ZipOut where
  compression : Nat
  entries : List (RPath × Bytes)
deriving DecidableEq

/-- The staging loop `for dir in self.dirs_list: os.makedirs(join(temp_dir,
dir), exist_ok=True)`.  The recorded names are `os.walk` base names, hence
single segments. -/
def stageDirs (w : World) : List String → Except Unit World
  | [] => .ok w
  | d :: ds =>
    match makedirs w [] [d] with
    | .error _ => .error ()
    | .ok w' => stageDirs w' ds

/-- The staging loop `for file in self.files_list: open(join(temp_dir,
file[0]), "wb+").write(file[1])`; `open` does not create parents, so it
fails (uncaught `FileNotFoundError`) if the parent directory is missing. -/
def stageFiles (w : World) : List (RPath × Bytes) → Except Unit World
  | [] => .ok w
  | (n, b) :: fs =>
    match writeFile w (resolvePath [] n) b with
    | none => .error ()
    | some w' => stageFiles w' fs

/-- Build the staging tree in a fresh temporary directory: for a fresh
archive, `os.mkdir(temp/"media")` plus writing `temp/"main.db"` with the
bytes of `./sample_files/main.db` (`template`, `none` when that bundled file
is missing, which raises); for a loaded archive, recreate every recorded
directory and file. -/
def stageArchive (a : EWSXFIle) (template : Option Bytes) : Except Unit World :=
  match a.existing_file with
  | none =>
    match template with
    | none => .error ()
    | some bs =>
      match writeFile (setFs [] ["media"] .dir) ["main.db"] bs with
      | none => .error ()
      | some w => .ok w
  | some _ =>
    match stageDirs [] a.dirs_list with
    | .error _ => .error ()
    | .ok w =>
      match stageFiles w a.files_list with
      | .error _ => .error ()
      | .ok w' => .ok w'

/-- `EWSXFIle.save`: build the staging tree, then walk it and write each
regular file (only files; `z.write` is never called on directories) into a
deflate-compressed zip. -/
def save (a : EWSXFIle) (template : Option Bytes) : Except Unit ZipOut :=
  match stageArchive a template with
  | .error _ => .error ()
  | .ok w => .ok { compression := ZIP_DEFLATED, entries := filesUnder w [] }

/-- Reopen a saved zip as a list of entries to be loaded again. -/
def entriesAsZip (z : ZipOut) : List ZEntry :=
  z.entries.map fun nb => { name := nb.1, data := nb.2 }

/-! ### `EWSXFIle.structure` (src/ewsx.py lines 82-111) -/

/-- Python `str.strip(chars)`: remove every character that occurs in `chars`
from both ends of the string. -/
def pyStrip (s : String) (chars : String) : String :=
  String.mk
    (((s.data.dropWhile (fun c => strContainsChar chars c)).reverse.dropWhile
      (fun c => strContainsChar chars c)).reverse)

/-- One iteration of the `for f in dirs_set + files_set` loop of
`structure`, threading the `explored` list and the accumulated text.
For a directory-classified `f`: append `f + "/\n"`, gather the members of
`files_set` that start with `f` (marking them explored), and if any, list
them indented, each displayed as `x.strip("/" + f)`.  Otherwise append the
bare name when it was not already explored. -/
def structStep (files_set : List String) (acc : List String × String)
    (f : String) : List String × String :=
  let explored := acc.1
  let struct := acc.2
  if is_directory f then
    let matched := files_set.filter (fun x => strStartsWith x f)
    let struct := struct ++ f ++ "/" ++ "\n"
    let struct :=
      if matched ≠ [] then
        struct ++ "    " ++
          String.intercalate "\n    "
            (matched.map (fun x => pyStrip x ("/" ++ f))) ++ "\n"
      else struct
    (explored ++ matched ++ [f], struct)
  else
    let struct := if f ∈ explored then struct else struct ++ f
    (explored ++ [f], struct)

/-- `EWSXFIle.structure`: for a loaded archive the listing is driven by
`files_list`/`dirs_list` (file entries are their stored path strings); for
a fresh one by the default `["media"]`/`["main.db"]` layout. -/
def structureOf (a : EWSXFIle) : String :=
  let files_set : List String :=
    match a.existing_file with
    | some _ => a.files_list.map (fun nb => nameString nb.1)
    | none => ["main.db"]
  let dirs_set : List String :=
    match a.existing_file with
    | some _ => a.dirs_list
    | none => ["media"]
  ((dirs_set ++ files_set).foldl (structStep files_set) ([], "")).2

/-- `structure` only reads the object's fields: the call returns the listing
and leaves the archive unchanged. -/
def structureRun (a : EWSXFIle) : String × EWSXFIle :=
  (structureOf a, a)

/-! ### `EWSXFIle.expand_to_dir` (src/ewsx.py lines 54-80) -/

/-- `os.mkdir` (no `exist_ok`): fails if the target exists or the parent is
missing. -/
def mkdirStrict (w : World) (p : RPath) : Except Unit World :=
  if (findFs w p).isSome then .error ()
  else if p.dropLast = [] ∨ findFs w p.dropLast = some .dir then
    .ok (setFs w p .dir)
  else .error ()

/-- `shutil.copytree(srcRoot, dst, dirs_exist_ok=True)` on the conflict-free
trees this code produces: replicate every entry below `sp` of `src` under
`dst`. -/
def copyTreeInto (src : World) (sp : RPath) (w : World) (dst : RPath) : World :=
  src.foldl
    (fun acc qe =>
      if sp <+: qe.1 ∧ qe.1 ≠ sp then setFs acc (dst ++ qe.1.drop sp.length) qe.2
      else acc)
    w

/-- The copy loop of `expand_to_dir`: `for file in os.listdir(temp_dir)`,
directory-classified names get `os.mkdir` + `shutil.copytree` (a
`NotADirectoryError` if the staged item is in fact a file), the rest get
`shutil.copy` into the schedule directory (an `IsADirectoryError` if the
staged item is in fact a directory). -/
def copyItems (stag : World) (schedPath : RPath) (w : World) :
    List String → Except Unit World
  | [] => .ok w
  | nm :: rest =>
    if is_directory nm then
      match mkdirStrict w (schedPath ++ [nm]) with
      | .error _ => .error ()
      | .ok w₁ =>
        match findFs stag [nm] with
        | some .dir =>
          copyItems stag schedPath (copyTreeInto stag [nm] w₁ (schedPath ++ [nm])) rest
        | _ => .error ()
    else
      match findFs stag [nm] with
      | some (.file b) =>
        match writeFile w (schedPath ++ [nm]) b with
        | none => .error ()
        | some w' => copyItems stag schedPath w' rest
      | _ => .error ()

/-- `EWSXFIle.expand_to_dir(output_dir)`: create `output_dir` if absent,
build the staging tree (same code as `save`), compute `num = len(os.listdir
(output_dir)) + 1`, `os.makedirs` the directory `output_dir/schedule{num}`,
and copy every top-level staged item into it. -/
def expand_to_dir (a : EWSXFIle) (template : Option Bytes) (w : World)
    (output_dir : List String) : Except Unit World :=
  match makedirs w [] output_dir with
  | .error _ => .error ()
  | .ok w₁ =>
    match stageArchive a template with
    | .error _ => .error ()
    | .ok stag =>
      let outP := resolvePath [] output_dir
      let num := (listdirNames w₁ outP).length + 1
      let schedName := "schedule" ++ toString num
      match makedirs w₁ [] (output_dir ++ [schedName]) with
      | .error _ => .error ()
      | .ok w₂ => copyItems stag (outP ++ [schedName]) w₂ (listdirNames stag [])

/-! ### Basic world lemmas -/

def keysW (w : World) : List RPath := w.map Prod.fst

theorem keysW_nil : keysW [] = [] := rfl

theorem keysW_cons (qe : RPath × FsEntry) (w : World) :
    keysW (qe :: w) = qe.1 :: keysW w := rfl

theorem findFs_setFs_self (w : World) (p : RPath) (e : FsEntry) :
    findFs (setFs w p e) p = some e := by
  induction w with
  | nil => simp [setFs, findFs]
  | cons qe w ih =>
    obtain ⟨q, e'⟩ := qe
    by_cases h : q = p
    · subst h; simp [setFs, findFs]
    · simp [setFs, findFs, h, ih]

theorem findFs_setFs_ne (w : World) (p q : RPath) (e : FsEntry) (h : q ≠ p) :
    findFs (setFs w p e) q = findFs w q := by
  have h' : ¬ (p = q) := fun hh => h hh.symm
  induction w with
  | nil =>
    simp only [setFs, findFs]
    rw [if_neg h']
  | cons qe w ih =>
    obtain ⟨q0, e'⟩ := qe
    by_cases hq : q0 = p
    · subst hq
      simp only [setFs, if_pos rfl, findFs]
      rw [if_neg h', if_neg h']
    · simp only [setFs, if_neg hq, findFs]
      by_cases hq2 : q0 = q
      · rw [if_pos hq2, if_pos hq2]
      · rw [if_neg hq2, if_neg hq2]
        exact ih


theorem mem_keysW_setFs (w : World) (p r : RPath) (e : FsEntry) :
    r ∈ keysW (setFs w p e) ↔ r ∈ keysW w ∨ r = p := by
  induction w with
  | nil => simp [setFs, keysW]
  | cons qe w ih =>
    obtain ⟨q0, e'⟩ := qe
    by_cases hq : q0 = p
    · subst hq
      simp [setFs, keysW_cons, List.mem_cons]
      tauto
    · simp [setFs, hq, keysW_cons, List.mem_cons, ih]
      tauto

theorem keysW_nodup_setFs (w : World) (p : RPath) (e : FsEntry)
    (h : (keysW w).Nodup) : (keysW (setFs w p e)).Nodup := by
  induction w with
  | nil => simp [setFs, keysW]
  | cons qe w ih =>
    obtain ⟨q0, e'⟩ := qe
    rw [keysW_cons, List.nodup_cons] at h
    by_cases hq : q0 = p
    · subst hq
      simp [setFs, keysW_cons, List.nodup_cons]
      exact h
    · simp only [setFs, if_neg hq, keysW_cons, List.nodup_cons]
      refine ⟨fun hmem => ?_, ih h.2⟩
      rcases (mem_keysW_setFs w p q0 e).mp hmem with hmem | hmem
      · exact h.1 hmem
      · exact hq hmem
theorem mem_of_findFs (w : World) (p : RPath) (e : FsEntry)
    (h : findFs w p = some e) : (p, e) ∈ w := by
  induction w with
  | nil => simp [findFs] at h
  | cons qe w ih =>
    obtain ⟨q0, e'⟩ := qe
    by_cases hq : q0 = p
    · subst hq
      rw [findFs, if_pos rfl] at h
      obtain rfl : e' = e := Option.some.inj h
      exact List.mem_cons_self _ _
    · rw [findFs, if_neg hq] at h
      exact List.mem_cons_of_mem _ (ih h)

theorem findFs_of_mem (w : World) (p : RPath) (e : FsEntry)
    (hnd : (keysW w).Nodup) (h : (p, e) ∈ w) : findFs w p = some e := by
  induction w with
  | nil => simp at h
  | cons qe w ih =>
    obtain ⟨q0, e'⟩ := qe
    rw [keysW_cons, List.nodup_cons] at hnd
    rcases List.mem_cons.mp h with h | h
    · obtain ⟨h1, h2⟩ := Prod.mk.injEq .. |>.mp h
      subst h1; subst h2
      rw [findFs, if_pos rfl]
    · by_cases hq : q0 = p
      · subst hq
        exact absurd (List.mem_map_of_mem Prod.fst h) hnd.1
      · rw [findFs, if_neg hq]
        exact ih hnd.2 h

theorem findFs_eq_none_iff (w : World) (p : RPath) :
    findFs w p = none ↔ p ∉ keysW w := by
  induction w with
  | nil => simp [findFs, keysW]
  | cons qe w ih =>
    obtain ⟨q0, e'⟩ := qe
    rw [keysW_cons]
    by_cases hq : q0 = p
    · subst hq
      rw [findFs, if_pos rfl]
      simp
    · rw [findFs, if_neg hq]
      simp only [List.mem_cons, not_or]
      rw [ih]
      constructor
      · exact fun hnp => ⟨fun hh => hq hh.symm, hnp⟩
      · exact fun hh => hh.2

/-! ### Walk membership lemmas -/

theorem mem_filesUnder_nil (w : World) (hnd : (keysW w).Nodup)
    (nb : RPath × Bytes) :
    nb ∈ filesUnder w [] ↔ findFs w nb.1 = some (.file nb.2) ∧ nb.1 ≠ [] := by
  obtain ⟨p, b⟩ := nb
  constructor
  · intro h
    rw [filesUnder, List.mem_filterMap] at h
    obtain ⟨⟨q, e⟩, hq, heq⟩ := h
    cases e with
    | dir => simp at heq
    | file bb =>
      simp only [List.nil_prefix, true_and, List.length_nil, List.drop_zero] at heq
      by_cases hq0 : q ≠ []
      · rw [if_pos hq0] at heq
        simp only [Option.some.injEq, Prod.mk.injEq] at heq
        obtain ⟨h1, h2⟩ := heq
        refine ⟨?_, ?_⟩
        · rw [← h1, ← h2]
          exact findFs_of_mem w q (.file bb) hnd hq
        · rw [← h1]
          exact hq0
      · rw [if_neg hq0] at heq
        cases heq
  · rintro ⟨hfind, hne⟩
    rw [filesUnder, List.mem_filterMap]
    refine ⟨(p, .file b), mem_of_findFs w p (.file b) hfind, ?_⟩
    simp [hne]

theorem mem_dirsUnder_nil (w : World) (hnd : (keysW w).Nodup) (p : RPath) :
    p ∈ dirsUnder w [] ↔ findFs w p = some .dir ∧ p ≠ [] := by
  constructor
  · intro h
    rw [dirsUnder, List.mem_filterMap] at h
    obtain ⟨⟨q, e⟩, hq, heq⟩ := h
    cases e with
    | file bb => simp at heq
    | dir =>
      simp only [List.nil_prefix, true_and, List.length_nil, List.drop_zero] at heq
      by_cases hq0 : q ≠ []
      · rw [if_pos hq0] at heq
        have h1 : q = p := Option.some.inj heq
        refine ⟨?_, ?_⟩
        · rw [← h1]
          exact findFs_of_mem w q .dir hnd hq
        · rw [← h1]
          exact hq0
      · rw [if_neg hq0] at heq
        cases heq
  · rintro ⟨hfind, hne⟩
    rw [dirsUnder, List.mem_filterMap]
    refine ⟨(p, .dir), mem_of_findFs w p .dir hfind, ?_⟩
    simp [hne]

theorem filesUnder_fst_sublist (w : World) :
    List.Sublist ((filesUnder w []).map Prod.fst) (keysW w) := by
  induction w with
  | nil => simp [filesUnder, keysW]
  | cons qe w ih =>
    obtain ⟨q, e⟩ := qe
    rw [keysW_cons]
    cases e with
    | dir =>
      rw [show filesUnder ((q, FsEntry.dir) :: w) [] = filesUnder w [] from rfl]
      exact ih.cons q
    | file b =>
      by_cases hq : q ≠ []
      · rw [show filesUnder ((q, FsEntry.file b) :: w) []
            = (q, b) :: filesUnder w [] by
          simp [filesUnder, List.filterMap_cons, hq]]
        exact ih.cons₂ q
      · rw [show filesUnder ((q, FsEntry.file b) :: w) [] = filesUnder w [] by
          simp [filesUnder, List.filterMap_cons, hq]]
        exact ih.cons q

theorem filesUnder_fst_nodup (w : World) (hnd : (keysW w).Nodup) :
    ((filesUnder w []).map Prod.fst).Nodup :=
  hnd.sublist (filesUnder_fst_sublist w)

/-! ### Claim C2: the directory-detection predicate -/

/-- The final path segment of an entry name, as the spec words it. -/
def finalSegment (name : String) : String :=
  String.mk ((name.data.reverse.takeWhile (fun c => c ≠ '/')).reverse)

/-- The spec's directory-detection heuristic, stated from its words: the
name ends with a path separator, or its final path segment contains no
`.`. -/
def spec_is_directory (name : String) : Bool :=
  strEndsWith name "/" || strEndsWith name "\\" ||
    !(strContainsChar (finalSegment name) '.')

/-- C2: `is_directory(n)` is true iff `n` ends with a path separator or the
final path segment of `n` contains no `.`; in particular
`is_directory("media/") = true`, `is_directory("media") = true`,
`is_directory("main.db") = false`, and `is_directory("README") = true` (the
documented misclassification of extensionless names as directories). -/
theorem claim_C2 :
    (∀ n, is_directory n = spec_is_directory n) ∧
    is_directory "media/" = true ∧ is_directory "media" = true ∧
    is_directory "main.db" = false ∧ is_directory "README" = true := by
  refine ⟨fun n => ?_, by decide, by decide, by decide, by decide⟩
  rw [is_directory, spec_is_directory, finalSegment, basename]
  cases h1 : strEndsWith n "/" <;> cases h2 : strEndsWith n "\\" <;>
    cases h3 : strContainsChar
      (String.mk ((n.data.reverse.takeWhile (fun c => c ≠ '/')).reverse)) '.' <;>
    simp [h1, h2, h3]

/-! ### Claim C5: `Create()` -/

/-- C5 counterexample: `Create()` performs no file access, so it succeeds
even when the bundled template database file is missing (refuting "fails
with IOError exactly when the bundled template file is missing"), and the
object it returns carries no recorded directories or entries (refuting
`directories = {"media"}` and `entries = [("main.db", ...)]` as properties
of the returned object). -/
theorem claim_C5_counterexample :
    createRun false = Except.ok Create ∧ Create.existing_file = none ∧
    Create.dirs_list = [] ∧ Create.files_list = [] :=
  ⟨rfl, rfl, rfl, rfl⟩

/-- C5 (amended): `Create()` always succeeds — whether or not the bundled
template exists — and returns a fresh archive with `origin = none` and no
recorded directories or entries.  The `media`/`main.db` template layout is
realized only on `save`: saving a fresh archive raises IOError exactly when
the bundled template is missing, and otherwise produces a deflate zip whose
sole entry is `main.db` with the template bytes; `structure()` of a fresh
archive likewise reports the template layout. -/
theorem claim_C5 :
    (∀ t : Bool, createRun t = Except.ok Create) ∧
    Create.existing_file = none ∧
    Create.dirs_list = [] ∧ Create.files_list = [] ∧
    save Create none = Except.error () ∧
    (∀ bs : Bytes, save Create (some bs) =
      Except.ok { compression := ZIP_DEFLATED, entries := [(["main.db"], bs)] }) ∧
    structureOf Create = "media/\nmain.db" :=
  ⟨fun _ => rfl, rfl, rfl, rfl, rfl, fun _ => rfl, by decide⟩

/-! ### Claim C1 counterexample -/

/-- An archive containing an explicit (empty) directory entry `media/` and
a file `main.db`. -/
def zEmptyDir : List ZEntry :=
  [{ name := ["media", ""], data := [] }, { name := ["main.db"], data := [1] }]

/-- C1 counterexample: loading an archive that contains an empty directory
`media/` and then saving it produces an archive whose reload has an empty
`directories` collection — `save` zips only regular files found by the
walk, so the empty directory is dropped and the `Structure()`-observed sets
differ. -/
theorem claim_C1_counterexample :
    from_file zEmptyDir "A" =
      Except.ok { existing_file := some "A",
                  files_list := [(["main.db"], [1])],
                  dirs_list := ["media"] } ∧
    (do
      let a ← from_file zEmptyDir "A"
      let z ← save a none
      from_file (entriesAsZip z) "B") =
      Except.ok { existing_file := some "B",
                  files_list := [(["main.db"], [1])],
                  dirs_list := [] } ∧
    (["media"] : List String) ≠ [] :=
  ⟨rfl, rfl, by decide⟩

/-! ### Claim C3 counterexample -/

/-- An archive with one file nested two directories deep. -/
def zNested : List ZEntry := [{ name := ["a", "b", "c.txt"], data := [5] }]

/-- C3 counterexample: loading an archive containing `a/b/c.txt` records
`dirs_list = ["a", "b"]` — the directory *base names* met during the walk,
not relative paths — so the file's parent directory path `a/b` does not
appear in the directories collection. -/
theorem claim_C3_counterexample :
    from_file zNested "A" =
      Except.ok { existing_file := some "A",
                  files_list := [(["a", "b", "c.txt"], [5])],
                  dirs_list := ["a", "b"] } ∧
    nameString ["a", "b"] ∉ (["a", "b"] : List String) :=
  ⟨rfl, by decide⟩

/-! ### Claim C4 counterexample -/

/-- A loaded archive that records the directory `media` with no files in
it (exactly what loading `zEmptyDir` produces). -/
def aEmptyMedia : EWSXFIle :=
  { existing_file := some "A", files_list := [(["main.db"], [1])],
    dirs_list := ["media"] }

/-- C4 counterexample: saving an archive whose recorded directory `media`
contains no files produces a zip with a single `main.db` entry and no entry
at all for the directory — `save` only writes the regular files found by
walking the staging tree, so a recorded directory without files is absent
from the archive, refuting "contains every recorded directory (present even
if it has no files)". -/
theorem claim_C4_counterexample :
    save aEmptyMedia none =
      Except.ok { compression := 8, entries := [(["main.db"], [1])] } ∧
    ¬ ∃ nb ∈ ([(["main.db"], [1])] : List (RPath × Bytes)),
        nb.1 = ["media"] ∨ nb.1 = ["media", ""] :=
  ⟨rfl, by decide⟩

/-! ### Claim C8 counterexample -/

/-- A world whose `out` directory already contains a `schedule2` directory
(with a file in it) but no `schedule1`. -/
def w8c : World :=
  [(["out"], .dir), (["out", "schedule2"], .dir),
   (["out", "schedule2", "old.txt"], .file [3])]

/-- C8 counterexample: with `out` containing only the entry `schedule2`,
the entry count is 1, so `expand_to_dir` picks the name `schedule2` — which
already exists — and merges the archive into it (`makedirs` with
`exist_ok`): the pre-existing entry is modified and no new numbered
subdirectory is created, refuting "materializes into a new subdirectory"
and "pre-existing entries of outputDir are left untouched". -/
theorem claim_C8_counterexample :
    expand_to_dir Create (some [7]) w8c ["out"] =
      Except.ok
        [(["out"], .dir), (["out", "schedule2"], .dir),
         (["out", "schedule2", "old.txt"], .file [3]),
         (["out", "schedule2", "media"], .dir),
         (["out", "schedule2", "main.db"], .file [7])] ∧
    findFs w8c ["out", "schedule2", "main.db"] = none ∧
    (∀ nm ∈ listdirNames w8c ["out"], nm = "schedule2") :=
  ⟨rfl, rfl, by decide⟩

/-! ### Claim C9 counterexample -/

/-- An archive whose only directory has a `.` in its name. -/
def zDotDir : List ZEntry :=
  [{ name := ["weird.d", ""], data := [] },
   { name := ["weird.d", "x.txt"], data := [1] }]

/-- C9 counterexample: for a loaded archive whose directory is named
`weird.d` (a dot in the name, so `is_directory` misclassifies it as a
file), `structure()` produces `"weird.dweird.d/x.txt"` — a single line with
no newline and no indentation at all, although the archive has a top-level
directory with a contained file — refuting the claimed listing shape. -/
theorem claim_C9_counterexample :
    (from_file zDotDir "A").map structureOf =
      Except.ok "weird.dweird.d/x.txt" ∧
    (from_file zDotDir "A").map (fun a => a.dirs_list) =
      Except.ok ["weird.d"] ∧
    strContainsChar "weird.dweird.d/x.txt" '\n' = false :=
  ⟨rfl, rfl, by decide⟩

/-! ### Claim C10 counterexample -/

/-- A world containing the source archive `a.ewsx` and the extraction
target directory `out`. -/
def w10 : World := [(["a.ewsx"], .file [1]), (["out"], .dir)]

/-- A zip whose single entry climbs out of the output directory and back
onto the source file. -/
def z10 : List ZEntry := [{ name := ["..", "a.ewsx"], data := [9] }]

/-- C10 counterexample: extracting an archive whose entry is named
`../a.ewsx` into `out` writes through `out/../a.ewsx`, i.e. over the source
archive itself: its bytes change from `[1]` to `[9]`, refuting "the byte
content of the file at filepath is identical before and after the call". -/
theorem claim_C10_counterexample :
    findFs w10 ["a.ewsx"] = some (.file [1]) ∧
    (finalState (ExpandEWSXFileRun z10 w10 ["out"])).world =
      [(["a.ewsx"], .file [9]), (["out"], .dir)] ∧
    findFs [((["a.ewsx"] : RPath), FsEntry.file [9]),
            ((["out"] : RPath), FsEntry.dir)] ["a.ewsx"] = some (.file [9]) ∧
    ([9] : Bytes) ≠ [1] :=
  ⟨rfl, rfl, rfl, by decide⟩

/-! ### Claim C6: per-entry extraction failures are isolated -/

theorem expandEntries_append (outDir : RPath) (st : ExpandState)
    (l₁ l₂ : List ZEntry) :
    expandEntries outDir st (l₁ ++ l₂) =
      match expandEntries outDir st l₁ with
      | .error st' => .error st'
      | .ok st' => expandEntries outDir st' l₂ := by
  induction l₁ generalizing st with
  | nil => rfl
  | cons e es ih =>
    rw [List.cons_append]
    have hL : expandEntries outDir st (e :: (es ++ l₂)) =
        match expandStep outDir st e with
        | Except.error st' => Except.error st'
        | Except.ok st' => expandEntries outDir st' (es ++ l₂) := rfl
    have hR : expandEntries outDir st (e :: es) =
        match expandStep outDir st e with
        | Except.error st' => Except.error st'
        | Except.ok st' => expandEntries outDir st' es := rfl
    rw [hL, hR]
    cases hs : expandStep outDir st e with
    | error st' => rfl
    | ok st' => exact ih st' 

/-- C6: during `ExpandEWSXFile`, a file entry whose decompression or write
raises is caught and logged, and the loop goes on: if extraction reaches a
corrupt entry `e` (state `st₁`) and the parent-directory creation for `e`
succeeds (world `w`), the whole run equals extracting the remaining entries
from `w` with `"Error extracting ..."` appended to the log — the per-entry
failure neither aborts the remaining entries nor the operation. -/
theorem claim_C6 (outDir : RPath) (st st₁ : ExpandState) (w : World)
    (es₁ es₂ : List ZEntry) (e : ZEntry)
    (hfile : is_directoryN e.name = false) (hcor : e.corrupt = true)
    (h1 : expandEntries outDir st es₁ = .ok st₁)
    (hm : makedirs st₁.world [] ((pyJoin outDir e.name).dropLast) = .ok w) :
    expandEntries outDir st (es₁ ++ e :: es₂) =
      expandEntries outDir { world := w, log := st₁.log ++ [errMsg e.name] } es₂ := by
  rw [expandEntries_append, h1]
  show (match expandStep outDir st₁ e with
        | Except.error st' => Except.error st'
        | Except.ok st' => expandEntries outDir st' es₂) = _
  rw [expandStep, if_neg (by simp [hfile]), hm]
  simp only [hcor, if_true]

def c6pre : List ZEntry := [{ name := ["a.txt"], data := [1] }]
def c6bad : ZEntry := { name := ["b.txt"], data := [2], corrupt := true }
def c6post : List ZEntry := [{ name := ["c.txt"], data := [3] }]

/-- C6 witness: a three-entry archive whose middle entry is corrupt. -/
theorem claim_C6_witness :
    is_directoryN (["b.txt"] : RPath) = false ∧
    expandEntries [] ⟨[], []⟩ (c6pre ++ c6bad :: c6post) =
      expandEntries []
        ⟨[(["a.txt"], .file [1])], ["Error extracting b.txt"]⟩ c6post :=
  ⟨by decide,
   claim_C6 [] ⟨[], []⟩ ⟨[(["a.txt"], .file [1])], []⟩
     [(["a.txt"], .file [1])] c6pre c6post c6bad (by decide) rfl rfl rfl⟩

/-! ### Claim C7: temporary-directory cleanup -/

theorem findFs_rmTree (w : World) (t p : RPath) (hp : t <+: p) :
    findFs (rmTree w t) p = none := by
  induction w with
  | nil => rfl
  | cons pe w ih =>
    rw [rmTree, List.filter_cons]
    by_cases hd : t <+: pe.1
    · rw [if_neg (by simp [hd])]
      exact ih
    · rw [if_pos (by simp [hd]), findFs, if_neg ?_]
      · exact ih
      · intro heq
        exact hd (heq ▸ hp)

/-- C7: on every exit path of `from_file` — success, an invalid zip raising
`BadZipFile`, or an uncaught error during extraction — the temporary
directory tree created by `TemporaryDirectory` is removed before the call
returns: nothing under the temp path `t` remains in the final world. -/
theorem claim_C7 (z : Option (List ZEntry)) (w : World) (t : RPath)
    (fn : String) (p : RPath) (hp : t <+: p) :
    findFs (fromFileRun z w t fn).2 p = none := by
  unfold fromFileRun
  cases z with
  | none => exact findFs_rmTree _ t p hp
  | some es =>
    show findFs
      (match expandEntries t ⟨setFs w t .dir, []⟩ es with
       | .error st => ((Except.error () : Except Unit EWSXFIle), rmTree st.world t)
       | .ok st =>
         (Except.ok { existing_file := some fn
                      files_list := filesUnder st.world t
                      dirs_list := (dirsUnder st.world t).map (fun (q : RPath) => q.getLastD "") },
          rmTree st.world t)).2 p = none
    cases expandEntries t ⟨setFs w t .dir, []⟩ es with
    | error st => exact findFs_rmTree _ t p hp
    | ok st => exact findFs_rmTree _ t p hp

def c7zip : List ZEntry :=
  [{ name := ["media", "song.mp3"], data := [1] }, { name := ["main.db"], data := [2] }]

/-- C7 witness: loading a two-entry archive with temp directory `tmp1` in a
world that already holds a file leaves nothing under `tmp1`; the same holds
for an invalid zip. -/
theorem claim_C7_witness :
    ((["tmp1"] : RPath) <+: ["tmp1", "media"]) ∧
    findFs (fromFileRun (some c7zip) [(["keep.txt"], .file [4])] ["tmp1"] "A").2
      ["tmp1", "media"] = none ∧
    findFs (fromFileRun none [(["keep.txt"], .file [4])] ["tmp1"] "A").2
      ["tmp1", "media"] = none :=
  ⟨⟨["media"], rfl⟩,
   claim_C7 (some c7zip) [(["keep.txt"], .file [4])] ["tmp1"] "A"
     ["tmp1", "media"] ⟨["media"], rfl⟩,
   claim_C7 none [(["keep.txt"], .file [4])] ["tmp1"] "A"
     ["tmp1", "media"] ⟨["media"], rfl⟩⟩

/-! ### Claim C10: the source archive is not modified (amended) -/

/-- The world an `Except`-carried filesystem computation ends in. -/
def exWorld : Except World World → World
  | .ok w => w
  | .error w => w

theorem ensureDir_error_eq (w : World) (p : RPath) (w' : World)
    (h : ensureDir w p = .error w') : w' = w := by
  rw [ensureDir] at h
  by_cases hp : p = []
  · rw [if_pos hp] at h; cases h
  · rw [if_neg hp] at h
    cases hf : findFs w p with
    | none => rw [hf] at h; cases h
    | some e =>
      cases e with
      | dir => rw [hf] at h; cases h
      | file bb => rw [hf] at h; exact (Except.error.inj h).symm

theorem ensureDir_ok_file (w : World) (p : RPath) (w' : World)
    (src : RPath) (b : Bytes) (hok : ensureDir w p = .ok w')
    (h : findFs w src = some (.file b)) : findFs w' src = some (.file b) := by
  rw [ensureDir] at hok
  by_cases hp : p = []
  · rw [if_pos hp] at hok
    obtain rfl : w = w' := Except.ok.inj hok
    exact h
  · rw [if_neg hp] at hok
    cases hf : findFs w p with
    | none =>
      rw [hf] at hok
      obtain rfl : setFs w p .dir = w' := Except.ok.inj hok
      rw [findFs_setFs_ne w p src .dir (by intro hq; rw [hq] at h; rw [h] at hf; cases hf)]
      exact h
    | some e =>
      cases e with
      | dir =>
        rw [hf] at hok
        obtain rfl : w = w' := Except.ok.inj hok
        exact h
      | file bb => rw [hf] at hok; cases hok

theorem makedirs_file_pres (segs : List String) (w : World) (cur src : RPath)
    (b : Bytes) (h : findFs w src = some (.file b)) :
    findFs (exWorld (makedirs w cur segs)) src = some (.file b) := by
  induction segs generalizing w cur with
  | nil => exact h
  | cons s rest ih =>
    rw [makedirs]
    cases he : ensureDir w (normStep cur s) with
    | error w' =>
      obtain rfl : w' = w := ensureDir_error_eq w (normStep cur s) w' he
      exact h
    | ok w' => exact ih w' (normStep cur s) (ensureDir_ok_file w _ w' src b he h)

theorem writeFile_pres_ne (w : World) (p src : RPath) (b bb : Bytes) (w' : World)
    (hw : writeFile w p bb = some w') (hne : p ≠ src)
    (h : findFs w src = some (.file b)) : findFs w' src = some (.file b) := by
  rw [writeFile] at hw
  by_cases hp : p = []
  · rw [if_pos hp] at hw; cases hw
  · rw [if_neg hp] at hw
    by_cases hpar : p.dropLast = [] ∨ findFs w p.dropLast = some .dir
    · rw [if_pos hpar] at hw
      cases hf : findFs w p with
      | none =>
        rw [hf] at hw
        obtain rfl : setFs w p (.file bb) = w' := Option.some.inj hw
        rw [findFs_setFs_ne w p src (.file bb) (Ne.symm hne)]
        exact h
      | some e =>
        cases e with
        | dir => rw [hf] at hw; cases hw
        | file b0 =>
          rw [hf] at hw
          obtain rfl : setFs w p (.file bb) = w' := Option.some.inj hw
          rw [findFs_setFs_ne w p src (.file bb) (Ne.symm hne)]
          exact h
    · rw [if_neg hpar] at hw; cases hw

theorem expandStep_file_pres (outDir : RPath) (st : ExpandState) (e : ZEntry)
    (src : RPath) (b : Bytes) (h : findFs st.world src = some (.file b))
    (hne : is_directoryN e.name = false → resolvePath [] (pyJoin outDir e.name) ≠ src) :
    findFs (finalState (expandStep outDir st e)).world src = some (.file b) := by
  rw [expandStep]
  by_cases hd : is_directoryN e.name
  · rw [if_pos hd]
    cases hm : makedirs st.world [] (pyJoin outDir e.name) with
    | error w =>
      have := makedirs_file_pres (pyJoin outDir e.name) st.world [] src b h
      rw [hm] at this
      exact this
    | ok w =>
      have := makedirs_file_pres (pyJoin outDir e.name) st.world [] src b h
      rw [hm] at this
      exact this
  · rw [if_neg hd]
    cases hm : makedirs st.world [] ((pyJoin outDir e.name).dropLast) with
    | error w =>
      have := makedirs_file_pres ((pyJoin outDir e.name).dropLast) st.world [] src b h
      rw [hm] at this
      exact this
    | ok w =>
      have hw : findFs w src = some (.file b) := by
        have := makedirs_file_pres ((pyJoin outDir e.name).dropLast) st.world [] src b h
        rw [hm] at this
        exact this
      show findFs (finalState (if e.corrupt = true
          then Except.ok { world := w, log := st.log ++ [errMsg e.name] }
          else match writeFile w (resolvePath [] (pyJoin outDir e.name)) e.data with
            | none => Except.ok { world := w, log := st.log ++ [errMsg e.name] }
            | some w' => Except.ok { world := w', log := st.log })).world src =
        some (.file b)
      cases hcv : e.corrupt with
      | true => exact hw
      | false =>
        cases hwf : writeFile w (resolvePath [] (pyJoin outDir e.name)) e.data with
        | none => exact hw
        | some w' =>
          exact writeFile_pres_ne w _ src b e.data w' hwf
            (hne (Bool.eq_false_iff.mpr hd)) hw

theorem expandEntries_file_pres (outDir : RPath) (src : RPath) (b : Bytes) :
    ∀ (z : List ZEntry) (st : ExpandState),
    findFs st.world src = some (.file b) →
    (∀ e ∈ z, is_directoryN e.name = false →
      resolvePath [] (pyJoin outDir e.name) ≠ src) →
    findFs (finalState (expandEntries outDir st z)).world src = some (.file b) := by
  intro z
  induction z with
  | nil => intro st h _; exact h
  | cons e es ih =>
    intro st h hne
    have hstep := expandStep_file_pres outDir st e src b h
      (hne e (List.mem_cons_self e es))
    rw [expandEntries]
    cases hs : expandStep outDir st e with
    | error st' =>
      rw [hs] at hstep
      exact hstep
    | ok st' =>
      rw [hs] at hstep
      exact ih st' hstep (fun e' he' => hne e' (List.mem_cons_of_mem e he'))

/-- C10 (amended): `ExpandEWSXFile` leaves the source archive's bytes
unchanged — on success and on failure, with or without corrupt entries —
provided no file-classified entry name resolves onto the source path after
`os.path.join(output_dir, name)` (which discards `output_dir` entirely for
an absolute entry name) and lexical resolution.  Directory creation can
never alter the source file's bytes (`os.makedirs` fails rather than
replace a file), so only a file entry escaping the output directory — a
traversing name such as `../src`, or an absolute name — can modify it. -/
theorem claim_C10 (z : List ZEntry) (w : World) (outDir src : RPath)
    (b : Bytes) (hsrc : findFs w src = some (.file b))
    (hne : ∀ e ∈ z, is_directoryN e.name = false →
      resolvePath [] (pyJoin outDir e.name) ≠ src) :
    findFs (finalState (ExpandEWSXFileRun z w outDir)).world src =
      some (.file b) :=
  expandEntries_file_pres outDir src b z ⟨w, []⟩ hsrc hne

/-- C10 witness: a benign one-entry archive extracted into `out` leaves the
source `src.ewsx` bytes intact. -/
theorem claim_C10_witness :
    findFs [(["src.ewsx"], .file [1]), (["out"], .dir)] ["src.ewsx"] =
      some (.file [1]) ∧
    findFs (finalState (ExpandEWSXFileRun [{ name := ["x.txt"], data := [2] }]
        [(["src.ewsx"], .file [1]), (["out"], .dir)] ["out"])).world
      ["src.ewsx"] = some (.file [1]) :=
  ⟨rfl,
   claim_C10 [{ name := ["x.txt"], data := [2] }]
     [(["src.ewsx"], .file [1]), (["out"], .dir)] ["out"] ["src.ewsx"] [1]
     rfl (by decide)⟩

/-! ### Claim C3: parents of files (amended) -/

theorem findFs_setFs_cases (w : World) (p q : RPath) (e : FsEntry) :
    findFs (setFs w p e) q = if q = p then some e else findFs w q := by
  by_cases h : q = p
  · subst h; rw [if_pos rfl]; exact findFs_setFs_self w q e
  · rw [if_neg h]; exact findFs_setFs_ne w p q e h

theorem ensureDir_ok_shape (w : World) (p : RPath) (w' : World)
    (h : ensureDir w p = .ok w') :
    w' = w ∨ (p ≠ [] ∧ findFs w p = none ∧ w' = setFs w p .dir) := by
  rw [ensureDir] at h
  by_cases hp : p = []
  · rw [if_pos hp] at h
    exact Or.inl (Except.ok.inj h).symm
  · rw [if_neg hp] at h
    cases hf : findFs w p with
    | none =>
      rw [hf] at h
      exact Or.inr ⟨hp, rfl, (Except.ok.inj h).symm⟩
    | some e =>
      cases e with
      | dir =>
        rw [hf] at h
        exact Or.inl (Except.ok.inj h).symm
      | file bb => rw [hf] at h; cases h

theorem writeFile_some_shape (w : World) (p : RPath) (bb : Bytes) (w' : World)
    (h : writeFile w p bb = some w') :
    p ≠ [] ∧ (p.dropLast = [] ∨ findFs w p.dropLast = some .dir) ∧
    findFs w p ≠ some .dir ∧ w' = setFs w p (.file bb) := by
  rw [writeFile] at h
  by_cases hp : p = []
  · rw [if_pos hp] at h; cases h
  · rw [if_neg hp] at h
    by_cases hpar : p.dropLast = [] ∨ findFs w p.dropLast = some .dir
    · rw [if_pos hpar] at h
      refine ⟨hp, hpar, ?_, ?_⟩
      · cases hf : findFs w p with
        | none => simp
        | some e =>
          cases e with
          | dir => rw [hf] at h; cases h
          | file b0 => simp
      · cases hf : findFs w p with
        | none => rw [hf] at h; exact (Option.some.inj h).symm
        | some e =>
          cases e with
          | dir => rw [hf] at h; cases h
          | file b0 => rw [hf] at h; exact (Option.some.inj h).symm
    · rw [if_neg hpar] at h; cases h

/-- Invariant carried through extraction: keys are unique and every file
has an existing parent directory. -/
def StInv (w : World) : Prop :=
  (keysW w).Nodup ∧
  ∀ p b, findFs w p = some (.file b) →
    p ≠ [] ∧ (p.dropLast = [] ∨ findFs w p.dropLast = some .dir)

theorem ensureDir_ok_props (w : World) (p : RPath) (w' : World)
    (h : ensureDir w p = .ok w') :
    (∀ q, findFs w q = some .dir → findFs w' q = some .dir) ∧
    (∀ q b, findFs w' q = some (.file b) → findFs w q = some (.file b)) ∧
    ((keysW w).Nodup → (keysW w').Nodup) := by
  rcases ensureDir_ok_shape w p w' h with rfl | ⟨hp, hnone, rfl⟩
  · exact ⟨fun q hq => hq, fun q b hq => hq, fun hq => hq⟩
  · refine ⟨fun q hq => ?_, fun q b hq => ?_, fun hq => keysW_nodup_setFs w p .dir hq⟩
    · rw [findFs_setFs_ne w p q .dir (fun he => by rw [he, hnone] at hq; cases hq)]
      exact hq
    · rw [findFs_setFs_cases] at hq
      by_cases he : q = p
      · rw [if_pos he] at hq; cases hq
      · rw [if_neg he] at hq; exact hq

theorem makedirs_ok_props (segs : List String) (w : World) (cur : RPath)
    (w' : World) (h : makedirs w cur segs = .ok w') :
    (∀ q, findFs w q = some .dir → findFs w' q = some .dir) ∧
    (∀ q b, findFs w' q = some (.file b) → findFs w q = some (.file b)) ∧
    ((keysW w).Nodup → (keysW w').Nodup) := by
  induction segs generalizing w cur with
  | nil =>
    obtain rfl : w = w' := Except.ok.inj h
    exact ⟨fun q hq => hq, fun q b hq => hq, fun hq => hq⟩
  | cons s rest ih =>
    rw [makedirs] at h
    cases he : ensureDir w (normStep cur s) with
    | error w₁ => rw [he] at h; cases h
    | ok w₁ =>
      rw [he] at h
      obtain ⟨d1, f1, n1⟩ := ensureDir_ok_props w (normStep cur s) w₁ he
      obtain ⟨d2, f2, n2⟩ := ih w₁ (normStep cur s) h
      exact ⟨fun q hq => d2 q (d1 q hq), fun q b hq => f1 q b (f2 q b hq),
        fun hq => n2 (n1 hq)⟩

theorem makedirs_ok_inv (segs : List String) (w : World) (cur : RPath)
    (w' : World) (h : makedirs w cur segs = .ok w') (hinv : StInv w) :
    StInv w' := by
  obtain ⟨hd, hf, hn⟩ := makedirs_ok_props segs w cur w' h
  refine ⟨hn hinv.1, fun p b hp => ?_⟩
  have hw := hf p b hp
  obtain ⟨h1, h2⟩ := hinv.2 p b hw
  refine ⟨h1, ?_⟩
  rcases h2 with h2 | h2
  · exact Or.inl h2
  · exact Or.inr (hd _ h2)

theorem writeFile_some_inv (w : World) (p : RPath) (bb : Bytes) (w' : World)
    (h : writeFile w p bb = some w') (hinv : StInv w) :
    StInv w' ∧ (∀ q, findFs w q = some .dir → findFs w' q = some .dir) := by
  obtain ⟨hp, hpar, hnd, rfl⟩ := writeFile_some_shape w p bb w' h
  have hdirs : ∀ q, findFs w q = some .dir →
      findFs (setFs w p (.file bb)) q = some .dir := by
    intro q hq
    rw [findFs_setFs_ne w p q _ (fun he => hnd (he ▸ hq))]
    exact hq
  refine ⟨⟨keysW_nodup_setFs w p _ hinv.1, fun q b hq => ?_⟩, hdirs⟩
  rw [findFs_setFs_cases] at hq
  by_cases he : q = p
  · subst he
    refine ⟨hp, ?_⟩
    rcases hpar with h2 | h2
    · exact Or.inl h2
    · exact Or.inr (hdirs _ h2)
  · rw [if_neg he] at hq
    obtain ⟨h1, h2⟩ := hinv.2 q b hq
    refine ⟨h1, ?_⟩
    rcases h2 with h2 | h2
    · exact Or.inl h2
    · exact Or.inr (hdirs _ h2)

theorem expandStep_ok_inv (outDir : RPath) (st st' : ExpandState) (e : ZEntry)
    (h : expandStep outDir st e = .ok st') (hinv : StInv st.world) :
    StInv st'.world := by
  rw [expandStep] at h
  by_cases hd : is_directoryN e.name
  · rw [if_pos hd] at h
    cases hm : makedirs st.world [] (pyJoin outDir e.name) with
    | error w => rw [hm] at h; cases h
    | ok w =>
      rw [hm] at h
      obtain rfl : { st with world := w } = st' := Except.ok.inj h
      exact makedirs_ok_inv _ _ _ _ hm hinv
  · rw [if_neg hd] at h
    cases hm : makedirs st.world [] ((pyJoin outDir e.name).dropLast) with
    | error w => rw [hm] at h; cases h
    | ok w =>
      rw [hm] at h
      have hwinv : StInv w := makedirs_ok_inv _ _ _ _ hm hinv
      cases hcv : e.corrupt with
      | true =>
        rw [hcv] at h
        have h' : Except.ok { world := w, log := st.log ++ [errMsg e.name] } =
            Except.ok st' := h
        obtain rfl := Except.ok.inj h'
        exact hwinv
      | false =>
        rw [hcv] at h
        have h' : (match writeFile w (resolvePath [] (pyJoin outDir e.name)) e.data with
            | none => Except.ok { world := w, log := st.log ++ [errMsg e.name] }
            | some w₂ => Except.ok { world := w₂, log := st.log }) =
            Except.ok st' := h
        cases hwf : writeFile w (resolvePath [] (pyJoin outDir e.name)) e.data with
        | none =>
          rw [hwf] at h'
          obtain rfl := Except.ok.inj h'
          exact hwinv
        | some w₂ =>
          rw [hwf] at h'
          obtain rfl := Except.ok.inj h'
          exact (writeFile_some_inv w _ e.data w₂ hwf hwinv).1

theorem expandEntries_ok_inv (outDir : RPath) (z : List ZEntry)
    (st st' : ExpandState) (h : expandEntries outDir st z = .ok st')
    (hinv : StInv st.world) : StInv st'.world := by
  induction z generalizing st with
  | nil =>
    obtain rfl : st = st' := Except.ok.inj h
    exact hinv
  | cons e es ih =>
    rw [show expandEntries outDir st (e :: es) =
        (match expandStep outDir st e with
         | Except.error st₁ => Except.error st₁
         | Except.ok st₁ => expandEntries outDir st₁ es) from rfl] at h
    cases hs : expandStep outDir st e with
    | error st₁ => rw [hs] at h; cases h
    | ok st₁ =>
      rw [hs] at h
      exact ih st₁ h (expandStep_ok_inv outDir st st₁ e hs hinv)

/-- C3 (amended): `dirs_list` records directory *base names*; for every
archive `from_file` can load, every file entry whose parent is not the
archive root has its immediate parent directory's base name in
`dirs_list` (directories are created before their files are written). -/
theorem claim_C3 (z : List ZEntry) (fn : String) (a : EWSXFIle)
    (h : from_file z fn = .ok a) :
    ∀ nb ∈ a.files_list, nb.1.dropLast ≠ [] →
      nb.1.dropLast.getLastD "" ∈ a.dirs_list := by
  rw [from_file] at h
  cases he : expandEntries [] ⟨[], []⟩ z with
  | error st => rw [he] at h; cases h
  | ok st =>
    rw [he] at h
    obtain rfl := (Except.ok.inj h).symm
    intro nb hnb hne
    have hinv : StInv st.world :=
      expandEntries_ok_inv [] z ⟨[], []⟩ st he
        ⟨List.nodup_nil, fun p b hp => by cases hp⟩
    have hfind := (mem_filesUnder_nil st.world hinv.1 nb).mp hnb
    obtain ⟨h1, h2⟩ := hinv.2 nb.1 nb.2 hfind.1
    rcases h2 with h2 | h2
    · exact absurd h2 hne
    · have hmem : nb.1.dropLast ∈ dirsUnder st.world [] :=
        (mem_dirsUnder_nil st.world hinv.1 nb.1.dropLast).mpr ⟨h2, hne⟩
      exact List.mem_map_of_mem (fun (p : RPath) => p.getLastD "") hmem

def c3zip : List ZEntry := [{ name := ["a", "b.txt"], data := [1] }]

/-- C3 witness: loading an archive with the single file `a/b.txt` records
`a` in `dirs_list`, the base name of the file's parent. -/
theorem claim_C3_witness :
    from_file c3zip "A" =
      Except.ok { existing_file := some "A",
                  files_list := [(["a", "b.txt"], [1])],
                  dirs_list := ["a"] } ∧
    ("a" : String) ∈ ["a"] ∧
    ((["a", "b.txt"] : RPath).dropLast.getLastD "") ∈
      ({ existing_file := some "A", files_list := [(["a", "b.txt"], [1])],
         dirs_list := ["a"] } : EWSXFIle).dirs_list :=
  ⟨rfl, by decide,
   claim_C3 c3zip "A"
     { existing_file := some "A", files_list := [(["a", "b.txt"], [1])],
       dirs_list := ["a"] } rfl (["a", "b.txt"], [1]) (by decide) (by decide)⟩

/-! ### Good archives: load characterization (for C1 and C4) -/

/-- A well-formed path segment: nonempty and not a relative component. -/
def goodSegB (s : String) : Bool :=
  decide (s ≠ "" ∧ s ≠ "." ∧ s ≠ "..")

theorem resolvePath_good (segs : List String) (cur : RPath)
    (h : segs.all goodSegB = true) : resolvePath cur segs = cur ++ segs := by
  induction segs generalizing cur with
  | nil => simp [resolvePath]
  | cons s rest ih =>
    rw [List.all_cons, Bool.and_eq_true] at h
    obtain ⟨hs1, hs2, hs3⟩ := of_decide_eq_true h.1
    have hstep : normStep cur s = cur ++ [s] := by
      simp [normStep, hs1, hs2, hs3]
    have : resolvePath cur (s :: rest) = resolvePath (cur ++ [s]) rest := by
      rw [resolvePath, List.foldl_cons, hstep]; rfl
    rw [this, ih (cur ++ [s]) h.2, List.append_assoc]
    rfl

/-- The archives for which the load/save round trip is exact: every entry
is a non-corrupt regular-file entry at depth at most 2 with well-formed
segments, entry names are distinct, and no entry name is another entry's
parent directory. -/
def GoodZip (z : List ZEntry) : Prop :=
  (∀ e ∈ z, e.name.all goodSegB = true ∧
    (e.name.length = 1 ∨ e.name.length = 2) ∧
    is_directoryN e.name = false ∧ e.corrupt = false) ∧
  (z.map (fun e => e.name)).Nodup ∧
  (∀ e ∈ z, ∀ e' ∈ z, e.name ≠ e'.name.dropLast)

/-- What the output directory looks like after extracting the entries
`done`: exactly their files, and exactly their parent directories. -/
def LoadInv (done : List ZEntry) (w : World) : Prop :=
  (keysW w).Nodup ∧
  (∀ p b, findFs w p = some (.file b) ↔ ∃ e ∈ done, e.name = p ∧ e.data = b) ∧
  (∀ p, findFs w p = some .dir ↔ (p ≠ [] ∧ ∃ e ∈ done, e.name.dropLast = p))

theorem load_step (done : List ZEntry) (st : ExpandState) (e : ZEntry)
    (hall : e.name.all goodSegB = true)
    (hlen : e.name.length = 1 ∨ e.name.length = 2)
    (hdir : is_directoryN e.name = false) (hcor : e.corrupt = false)
    (hfresh : ∀ e' ∈ done, e'.name ≠ e.name)
    (hsep1 : ∀ e' ∈ done, e'.name ≠ e.name.dropLast)
    (hsep2 : ∀ e' ∈ done, e.name ≠ e'.name.dropLast)
    (hinv : LoadInv done st.world) :
    ∃ w₂, expandStep [] st e = .ok { world := w₂, log := st.log } ∧
      LoadInv (done ++ [e]) w₂ := by
  obtain ⟨hnodup, hfiles, hdirs⟩ := hinv
  have hdir' : ¬ (is_directoryN e.name = true) := by simp [hdir]
  -- common facts
  have hne0 : e.name ≠ [] := by
    intro hq
    rcases hlen with h1 | h1 <;> rw [hq] at h1 <;> cases h1
  have hhead : e.name.headD " " ≠ "" := by
    cases hn : e.name with
    | nil => exact absurd hn hne0
    | cons s t =>
      have hg : goodSegB s = true := by
        rw [hn, List.all_cons, Bool.and_eq_true] at hall
        exact hall.1
      obtain ⟨h1, _, _⟩ := of_decide_eq_true hg
      exact h1
  have hpj : pyJoin [] e.name = e.name :=
    (pyJoin_rel [] e.name hhead).trans (List.nil_append _)
  rcases hlen with hlen1 | hlen2
  · -- e.name = [f]
    obtain ⟨f, hf⟩ := List.length_eq_one.mp hlen1
    have hmk : makedirs st.world [] e.name.dropLast = .ok st.world := by
      rw [hf]; rfl
    have hres : resolvePath [] e.name = e.name :=
      (resolvePath_good e.name [] hall).trans (List.nil_append _)
    have hfind : findFs st.world e.name = none := by
      cases hx : findFs st.world e.name with
      | none => rfl
      | some ee =>
        cases ee with
        | dir =>
          obtain ⟨_, e', he', hdl⟩ := (hdirs e.name).mp hx
          exact absurd hdl.symm (hsep2 e' he')
        | file bb =>
          obtain ⟨e', he', hname, _⟩ := (hfiles e.name bb).mp hx
          exact absurd hname (hfresh e' he')
    have hwf : writeFile st.world e.name e.data =
        some (setFs st.world e.name (.file e.data)) := by
      rw [writeFile, if_neg (by simp [hne0]), if_pos (Or.inl (by rw [hf]; rfl)), hfind]
    refine ⟨setFs st.world e.name (.file e.data), ?_, ?_, ?_, ?_⟩
    · rw [expandStep, if_neg hdir', hpj, hmk]
      show ((if e.corrupt = true
          then Except.ok { world := st.world, log := st.log ++ [errMsg e.name] }
          else match writeFile st.world (resolvePath [] e.name) e.data with
            | none => Except.ok { world := st.world, log := st.log ++ [errMsg e.name] }
            | some w' => Except.ok { world := w', log := st.log }) :
          Except ExpandState ExpandState) = _
      rw [hcor, if_neg Bool.false_ne_true, hres, hwf]
    · exact keysW_nodup_setFs st.world e.name _ hnodup
    · intro p b
      rw [findFs_setFs_cases]
      by_cases hp : p = e.name
      · subst hp
        rw [if_pos rfl]
        constructor
        · intro hq
          obtain rfl : e.data = b := by
            have := Option.some.inj hq
            exact FsEntry.file.inj this
          exact ⟨e, List.mem_append_right done (List.mem_singleton.mpr rfl), rfl, rfl⟩
        · rintro ⟨e', he', hn, hb⟩
          rcases List.mem_append.mp he' with he' | he'
          · exact absurd hn (hfresh e' he')
          · obtain rfl : e' = e := List.mem_singleton.mp he'
            rw [hb]
      · rw [if_neg hp, hfiles p b]
        constructor
        · rintro ⟨e', he', hn, hb⟩
          exact ⟨e', List.mem_append_left [e] he', hn, hb⟩
        · rintro ⟨e', he', hn, hb⟩
          rcases List.mem_append.mp he' with he' | he'
          · exact ⟨e', he', hn, hb⟩
          · obtain rfl : e' = e := List.mem_singleton.mp he'
            exact absurd hn (fun hq => hp hq.symm)
    · intro p
      rw [findFs_setFs_cases]
      by_cases hp : p = e.name
      · subst hp
        rw [if_pos rfl]
        constructor
        · intro hq; cases hq
        · rintro ⟨hne, e', he', hdl⟩
          rcases List.mem_append.mp he' with he' | he'
          · exact absurd hdl.symm (hsep2 e' he')
          · have he2 : e' = e := List.mem_singleton.mp he'
            rw [he2, hf] at hdl
            simp at hdl
      · rw [if_neg hp, hdirs p]
        constructor
        · rintro ⟨hne, e', he', hdl⟩
          exact ⟨hne, e', List.mem_append_left [e] he', hdl⟩
        · rintro ⟨hne, e', he', hdl⟩
          rcases List.mem_append.mp he' with he' | he'
          · exact ⟨hne, e', he', hdl⟩
          · have he2 : e' = e := List.mem_singleton.mp he'
            rw [he2, hf] at hdl
            simp at hdl
            exact absurd hdl hne
  · -- e.name = [d, f]
    obtain ⟨d, f, hf⟩ := List.length_eq_two.mp hlen2
    have hgd : goodSegB d = true := by
      rw [hf] at hall
      rw [List.all_cons, Bool.and_eq_true] at hall
      exact hall.1
    obtain ⟨hd1, hd2, hd3⟩ := of_decide_eq_true hgd
    have hstepd : normStep [] d = [d] := by simp [normStep, hd1, hd2, hd3]
    have hdl : e.name.dropLast = [d] := by rw [hf]; rfl
    -- the parent directory after ensureDir
    obtain ⟨w₁, hens, hw1f, hw1d, hw1n⟩ :
        ∃ w₁, ensureDir st.world [d] = .ok w₁ ∧
          (∀ q b, findFs w₁ q = some (.file b) ↔
            findFs st.world q = some (.file b)) ∧
          (∀ q, findFs w₁ q = some .dir ↔
            (findFs st.world q = some .dir ∨ q = [d])) ∧
          (keysW w₁).Nodup := by
      cases hx : findFs st.world [d] with
      | none =>
        refine ⟨setFs st.world [d] .dir, ?_, ?_, ?_, ?_⟩
        · rw [ensureDir, if_neg (by simp), hx]
        · intro q b
          rw [findFs_setFs_cases]
          by_cases hq : q = [d]
          · subst hq
            rw [if_pos rfl, hx]
            simp
          · rw [if_neg hq]
        · intro q
          rw [findFs_setFs_cases]
          by_cases hq : q = [d]
          · subst hq
            rw [if_pos rfl, hx]
            simp
          · rw [if_neg hq]
            simp [hq]
        · exact keysW_nodup_setFs st.world [d] .dir hnodup
      | some ee =>
        cases ee with
        | dir =>
          refine ⟨st.world, ?_, fun q b => Iff.rfl, ?_, hnodup⟩
          · rw [ensureDir, if_neg (by simp), hx]
          · intro q
            by_cases hq : q = [d]
            · subst hq
              simp [hx]
            · simp [hq]
        | file bb =>
          obtain ⟨e', he', hname, _⟩ := (hfiles [d] bb).mp hx
          rw [← hdl] at hname
          exact absurd hname (hsep1 e' he')
    have hmk : makedirs st.world [] e.name.dropLast = .ok w₁ := by
      rw [hdl, makedirs, hstepd, hens]
      rfl
    have hpard : findFs w₁ [d] = some .dir := (hw1d [d]).mpr (Or.inr rfl)
    have hres : resolvePath [] e.name = e.name :=
      (resolvePath_good e.name [] hall).trans (List.nil_append _)
    have hdf_ne_d : e.name ≠ [d] := by rw [hf]; simp
    have hfind : findFs w₁ e.name = none := by
      cases hx : findFs w₁ e.name with
      | none => rfl
      | some ee =>
        cases ee with
        | dir =>
          rcases (hw1d e.name).mp hx with hq | hq
          · obtain ⟨_, e', he', hq2⟩ := (hdirs e.name).mp hq
            exact absurd hq2.symm (hsep2 e' he')
          · exact absurd hq hdf_ne_d
        | file bb =>
          obtain ⟨e', he', hname, _⟩ := (hfiles e.name bb).mp ((hw1f e.name bb).mp hx)
          exact absurd hname (hfresh e' he')
    have hwf : writeFile w₁ e.name e.data =
        some (setFs w₁ e.name (.file e.data)) := by
      rw [writeFile, if_neg (by simp [hne0]),
        if_pos (Or.inr (by rw [hdl]; exact hpard)), hfind]
    refine ⟨setFs w₁ e.name (.file e.data), ?_, ?_, ?_, ?_⟩
    · rw [expandStep, if_neg hdir', hpj, hmk]
      show ((if e.corrupt = true
          then Except.ok { world := w₁, log := st.log ++ [errMsg e.name] }
          else match writeFile w₁ (resolvePath [] e.name) e.data with
            | none => Except.ok { world := w₁, log := st.log ++ [errMsg e.name] }
            | some w' => Except.ok { world := w', log := st.log }) :
          Except ExpandState ExpandState) = _
      rw [hcor, if_neg Bool.false_ne_true, hres, hwf]
    · exact keysW_nodup_setFs w₁ e.name _ hw1n
    · intro p b
      rw [findFs_setFs_cases]
      by_cases hp : p = e.name
      · subst hp
        rw [if_pos rfl]
        constructor
        · intro hq
          obtain rfl : e.data = b := FsEntry.file.inj (Option.some.inj hq)
          exact ⟨e, List.mem_append_right done (List.mem_singleton.mpr rfl), rfl, rfl⟩
        · rintro ⟨e', he', hn, hb⟩
          rcases List.mem_append.mp he' with he' | he'
          · exact absurd hn (hfresh e' he')
          · obtain rfl : e' = e := List.mem_singleton.mp he'
            rw [hb]
      · rw [if_neg hp, hw1f p b, hfiles p b]
        constructor
        · rintro ⟨e', he', hn, hb⟩
          exact ⟨e', List.mem_append_left [e] he', hn, hb⟩
        · rintro ⟨e', he', hn, hb⟩
          rcases List.mem_append.mp he' with he' | he'
          · exact ⟨e', he', hn, hb⟩
          · obtain rfl : e' = e := List.mem_singleton.mp he'
            exact absurd hn (fun hq => hp hq.symm)
    · intro p
      rw [findFs_setFs_cases]
      by_cases hp : p = e.name
      · subst hp
        rw [if_pos rfl]
        constructor
        · intro hq; cases hq
        · rintro ⟨hne, e', he', hq⟩
          rcases List.mem_append.mp he' with he' | he'
          · exact absurd hq.symm (hsep2 e' he')
          · obtain rfl : e' = e := List.mem_singleton.mp he'
            rw [hdl] at hq
            exact absurd hq hdf_ne_d.symm
      · rw [if_neg hp, hw1d p]
        constructor
        · rintro (hq | hq)
          · obtain ⟨hne, e', he', hq2⟩ := (hdirs p).mp hq
            exact ⟨hne, e', List.mem_append_left [e] he', hq2⟩
          · subst hq
            refine ⟨by simp [hd1], e,
              List.mem_append_right done (List.mem_singleton.mpr rfl), hdl⟩
        · rintro ⟨hne, e', he', hq⟩
          rcases List.mem_append.mp he' with he' | he'
          · exact Or.inl ((hdirs p).mpr ⟨hne, e', he', hq⟩)
          · obtain rfl : e' = e := List.mem_singleton.mp he'
            rw [hdl] at hq
            exact Or.inr hq.symm

theorem expand_good_aux (rem : List ZEntry) :
    ∀ (done : List ZEntry) (st : ExpandState), GoodZip (done ++ rem) →
    LoadInv done st.world →
    ∃ st', expandEntries [] st rem = .ok st' ∧
      LoadInv (done ++ rem) st'.world := by
  induction rem with
  | nil =>
    intro done st _ hinv
    exact ⟨st, rfl, by simpa using hinv⟩
  | cons e rest ih =>
    intro done st hgz hinv
    have hemem : e ∈ done ++ e :: rest :=
      List.mem_append_right done (List.mem_cons_self e rest)
    obtain ⟨hall, hlen, hdir, hcor⟩ := hgz.1 e hemem
    have hfresh : ∀ e' ∈ done, e'.name ≠ e.name := by
      intro e' he' heq
      have hnd := hgz.2.1
      rw [List.map_append, List.map_cons, List.nodup_append] at hnd
      exact hnd.2.2 (List.mem_map_of_mem (fun x => x.name) he')
        (by rw [heq]; exact List.mem_cons_self _ _)
    have hsep1 : ∀ e' ∈ done, e'.name ≠ e.name.dropLast := fun e' he' =>
      hgz.2.2 e' (List.mem_append_left _ he') e hemem
    have hsep2 : ∀ e' ∈ done, e.name ≠ e'.name.dropLast := fun e' he' =>
      hgz.2.2 e hemem e' (List.mem_append_left _ he')
    obtain ⟨w₂, hstep, hinv₂⟩ :=
      load_step done st e hall hlen hdir hcor hfresh hsep1 hsep2 hinv
    have hgz' : GoodZip ((done ++ [e]) ++ rest) := by
      rw [List.append_assoc, List.singleton_append]
      exact hgz
    obtain ⟨st', hrun, hinv'⟩ := ih (done ++ [e]) ⟨w₂, st.log⟩ hgz' hinv₂
    refine ⟨st', ?_, ?_⟩
    · rw [show expandEntries [] st (e :: rest) =
          (match expandStep [] st e with
           | Except.error st₁ => Except.error st₁
           | Except.ok st₁ => expandEntries [] st₁ rest) from rfl, hstep]
      exact hrun
    · rw [show done ++ e :: rest = (done ++ [e]) ++ rest by
        rw [List.append_assoc, List.singleton_append]]
      exact hinv'

theorem from_file_good (z : List ZEntry) (hz : GoodZip z) (fn : String) :
    ∃ a, from_file z fn = .ok a ∧ a.existing_file = some fn ∧
      (∀ nb : RPath × Bytes, nb ∈ a.files_list ↔
        ∃ e ∈ z, e.name = nb.1 ∧ e.data = nb.2) ∧
      (∀ dd : String, dd ∈ a.dirs_list ↔ ∃ e ∈ z, e.name.dropLast = [dd]) ∧
      ((a.files_list.map Prod.fst).Nodup) := by
  have hinit : LoadInv [] (⟨[], []⟩ : ExpandState).world := by
    refine ⟨List.nodup_nil, fun p b => ?_, fun p => ?_⟩
    · simp [findFs]
    · simp [findFs]
  obtain ⟨st, hrun, hinv⟩ := expand_good_aux z [] ⟨[], []⟩ (by simpa using hz) hinit
  rw [List.nil_append] at hinv
  obtain ⟨hnodup, hfiles, hdirs⟩ := hinv
  have hnames_ne : ∀ e ∈ z, e.name ≠ [] := by
    intro e he hq
    rcases (hz.1 e he).2.1 with h1 | h1 <;> rw [hq] at h1 <;> cases h1
  refine ⟨{ existing_file := some fn, files_list := filesUnder st.world [],
            dirs_list := (dirsUnder st.world []).map (fun (p : RPath) => p.getLastD "") },
    ?_, rfl, ?_, ?_, ?_⟩
  · unfold from_file
    rw [hrun]
  · intro nb
    rw [mem_filesUnder_nil st.world hnodup nb, hfiles nb.1 nb.2]
    constructor
    · rintro ⟨⟨e, he, hn, hb⟩, _⟩
      exact ⟨e, he, hn, hb⟩
    · rintro ⟨e, he, hn, hb⟩
      exact ⟨⟨e, he, hn, hb⟩, fun hq => hnames_ne e he (by rw [hn, hq])⟩
  · intro dd
    constructor
    · intro hmem
      obtain ⟨p, hp, hlast⟩ := List.mem_map.mp hmem
      obtain ⟨hfind, hne⟩ := (mem_dirsUnder_nil st.world hnodup p).mp hp
      obtain ⟨_, e, he, hdl⟩ := (hdirs p).mp hfind
      rcases (hz.1 e he).2.1 with h1 | h1
      · obtain ⟨x, hx⟩ := List.length_eq_one.mp h1
        rw [hx] at hdl
        simp at hdl
        exact absurd hdl hne
      · obtain ⟨x, y, hx⟩ := List.length_eq_two.mp h1
        rw [hx] at hdl
        have : p = [x] := by rw [← hdl]; rfl
        subst this
        refine ⟨e, he, ?_⟩
        rw [hx]
        simp at hlast
        rw [hlast]
        rfl
    · rintro ⟨e, he, hdl⟩
      have hfind : findFs st.world [dd] = some .dir :=
        (hdirs [dd]).mpr ⟨by simp, e, he, hdl⟩
      have hp : [dd] ∈ dirsUnder st.world [] :=
        (mem_dirsUnder_nil st.world hnodup [dd]).mpr ⟨hfind, by simp⟩
      have := List.mem_map_of_mem (fun (p : RPath) => p.getLastD "") hp
      simpa using this
  · exact filesUnder_fst_nodup st.world hnodup

/-! ### Staging characterization (for C4 and C1) -/

/-- The staging tree after creating the directories of `dset`: exactly
those single-segment directories, and no files yet beyond `fdone`. -/
def StageInv (dset : List String) (fdone : List (RPath × Bytes)) (w : World) :
    Prop :=
  (keysW w).Nodup ∧
  (∀ q b, findFs w q = some (.file b) ↔ (q, b) ∈ fdone) ∧
  (∀ q, findFs w q = some .dir ↔ ∃ dd ∈ dset, q = [dd])

theorem stageDirs_char (ds : List String) :
    ∀ (w : World) (dset : List String), StageInv dset [] w →
    (∀ dd ∈ ds, goodSegB dd = true) →
    ∃ w', stageDirs w ds = .ok w' ∧ StageInv (dset ++ ds) [] w' := by
  induction ds with
  | nil =>
    intro w dset hinv _
    exact ⟨w, rfl, by simpa using hinv⟩
  | cons dd ds ih =>
    intro w dset hinv hgood
    obtain ⟨hnodup, hfiles, hdirs⟩ := hinv
    obtain ⟨hd1, hd2, hd3⟩ := of_decide_eq_true (hgood dd (List.mem_cons_self dd ds))
    have hstepd : normStep [] dd = [dd] := by simp [normStep, hd1, hd2, hd3]
    obtain ⟨w₁, hens, hinv₁⟩ :
        ∃ w₁, ensureDir w [dd] = .ok w₁ ∧ StageInv (dset ++ [dd]) [] w₁ := by
      cases hx : findFs w [dd] with
      | none =>
        refine ⟨setFs w [dd] .dir, ?_, keysW_nodup_setFs w [dd] .dir hnodup,
          ?_, ?_⟩
        · rw [ensureDir, if_neg (by simp), hx]
        · intro q b
          rw [findFs_setFs_cases]
          by_cases hq : q = [dd]
          · subst hq
            rw [if_pos rfl]
            simp
          · rw [if_neg hq]
            exact hfiles q b
        · intro q
          rw [findFs_setFs_cases]
          by_cases hq : q = [dd]
          · subst hq
            simp
          · rw [if_neg hq, hdirs q]
            constructor
            · rintro ⟨d0, hd0, rfl⟩
              exact ⟨d0, List.mem_append_left _ hd0, rfl⟩
            · rintro ⟨d0, hd0, rfl⟩
              rcases List.mem_append.mp hd0 with hd0 | hd0
              · exact ⟨d0, hd0, rfl⟩
              · obtain rfl : d0 = dd := List.mem_singleton.mp hd0
                exact absurd rfl hq
      | some ee =>
        cases ee with
        | dir =>
          refine ⟨w, ?_, hnodup, hfiles, ?_⟩
          · rw [ensureDir, if_neg (by simp), hx]
          · intro q
            rw [hdirs q]
            constructor
            · rintro ⟨d0, hd0, rfl⟩
              exact ⟨d0, List.mem_append_left _ hd0, rfl⟩
            · rintro ⟨d0, hd0, rfl⟩
              rcases List.mem_append.mp hd0 with hd0 | hd0
              · exact ⟨d0, hd0, rfl⟩
              · obtain rfl : d0 = dd := List.mem_singleton.mp hd0
                exact (hdirs [d0]).mp hx
        | file bb =>
          have := (hfiles [dd] bb).mp hx
          simp at this
    have hmk : makedirs w [] [dd] = .ok w₁ := by
      rw [makedirs, hstepd, hens]
      rfl
    obtain ⟨w', hrun, hinv'⟩ := ih w₁ (dset ++ [dd]) hinv₁
      (fun d0 hd0 => hgood d0 (List.mem_cons_of_mem dd hd0))
    refine ⟨w', ?_, ?_⟩
    · rw [stageDirs, hmk]
      exact hrun
    · rw [show dset ++ dd :: ds = (dset ++ [dd]) ++ ds by
        rw [List.append_assoc, List.singleton_append]]
      exact hinv'

theorem stageFiles_char (fs : List (RPath × Bytes)) :
    ∀ (w : World) (dset : List String) (fdone : List (RPath × Bytes)),
    StageInv dset fdone w →
    (∀ nb ∈ fs, nb.1.all goodSegB = true ∧
      (nb.1.length = 1 ∨ nb.1.length = 2)) →
    (∀ nb ∈ fs, nb.1.length = 2 → nb.1.headD "" ∈ dset) →
    (∀ nb ∈ fs, ∀ dd ∈ dset, nb.1 ≠ [dd]) →
    (∀ nb ∈ fs, ∀ nb' ∈ fdone, nb'.1 ≠ nb.1) →
    ((fs.map Prod.fst).Nodup) →
    ∃ w', stageFiles w fs = .ok w' ∧ StageInv dset (fdone ++ fs) w' := by
  induction fs with
  | nil =>
    intro w dset fdone hinv _ _ _ _ _
    exact ⟨w, rfl, by simpa using hinv⟩
  | cons nb fs ih =>
    intro w dset fdone hinv hg1 hg2 hg3 hfr hnd
    obtain ⟨n, b⟩ := nb
    obtain ⟨hnodup, hfiles, hdirs⟩ := hinv
    obtain ⟨hall, hlen⟩ := hg1 (n, b) (List.mem_cons_self _ _)
    dsimp only at hall hlen
    have hne0 : n ≠ [] := by
      intro hq
      rcases hlen with h1 | h1 <;> rw [hq] at h1 <;> cases h1
    have hres : resolvePath [] n = n := by
      rw [resolvePath_good n [] hall, List.nil_append]
    have hpar : n.dropLast = [] ∨ findFs w n.dropLast = some .dir := by
      rcases hlen with h1 | h1
      · obtain ⟨x, hx⟩ := List.length_eq_one.mp h1
        rw [hx]
        exact Or.inl rfl
      · obtain ⟨x, y, hx⟩ := List.length_eq_two.mp h1
        have hmem := hg2 (n, b) (List.mem_cons_self _ _) h1
        dsimp only at hmem
        rw [hx] at hmem ⊢
        refine Or.inr ((hdirs [x]).mpr ⟨x, ?_, rfl⟩)
        simpa using hmem
    have hfind : findFs w n = none := by
      cases hx : findFs w n with
      | none => rfl
      | some ee =>
        cases ee with
        | dir =>
          obtain ⟨dd, hdd, rfl⟩ := (hdirs n).mp hx
          exact absurd rfl (hg3 ([dd], b) (List.mem_cons_self _ _) dd hdd)
        | file bb =>
          have hmem := (hfiles n bb).mp hx
          exact absurd rfl (hfr (n, b) (List.mem_cons_self _ _) (n, bb) hmem)
    have hwf : writeFile w n b = some (setFs w n (.file b)) := by
      rw [writeFile, if_neg (by simp [hne0]), if_pos hpar, hfind]
    have hinv₁ : StageInv dset (fdone ++ [(n, b)]) (setFs w n (.file b)) := by
      refine ⟨keysW_nodup_setFs w n _ hnodup, ?_, ?_⟩
      · intro q bb
        rw [findFs_setFs_cases]
        by_cases hq : q = n
        · subst hq
          rw [if_pos rfl]
          constructor
          · intro hq2
            obtain rfl : b = bb := FsEntry.file.inj (Option.some.inj hq2)
            exact List.mem_append_right _ (List.mem_singleton.mpr rfl)
          · intro hq2
            rcases List.mem_append.mp hq2 with hq2 | hq2
            · exact absurd rfl (hfr (q, b) (List.mem_cons_self _ _) (q, bb) hq2)
            · obtain hq3 : (q, bb) = (q, b) := List.mem_singleton.mp hq2
              obtain rfl : bb = b := (Prod.mk.injEq .. |>.mp hq3).2
              rfl
        · rw [if_neg hq, hfiles q bb]
          constructor
          · intro hq2
            exact List.mem_append_left _ hq2
          · intro hq2
            rcases List.mem_append.mp hq2 with hq2 | hq2
            · exact hq2
            · obtain hq3 : (q, bb) = (n, b) := List.mem_singleton.mp hq2
              exact absurd (Prod.mk.injEq .. |>.mp hq3).1 hq
      · intro q
        rw [findFs_setFs_cases]
        by_cases hq : q = n
        · subst hq
          rw [if_pos rfl]
          constructor
          · intro hq2; cases hq2
          · rintro ⟨dd, hdd, rfl⟩
            exact absurd rfl (hg3 ([dd], b) (List.mem_cons_self _ _) dd hdd)
        · rw [if_neg hq]
          exact hdirs q
    have hfr' : ∀ nb' ∈ fs, ∀ nb'' ∈ fdone ++ [(n, b)], nb''.1 ≠ nb'.1 := by
      intro nb' hnb' nb'' hnb'' heq
      rcases List.mem_append.mp hnb'' with hq | hq
      · exact hfr nb' (List.mem_cons_of_mem _ hnb') nb'' hq heq
      · obtain rfl : nb'' = (n, b) := List.mem_singleton.mp hq
        rw [List.map_cons, List.nodup_cons] at hnd
        exact hnd.1 (heq ▸ List.mem_map_of_mem Prod.fst hnb')
    obtain ⟨w', hrun, hinv'⟩ := ih (setFs w n (.file b)) dset (fdone ++ [(n, b)])
      hinv₁ (fun nb' h => hg1 nb' (List.mem_cons_of_mem _ h))
      (fun nb' h => hg2 nb' (List.mem_cons_of_mem _ h))
      (fun nb' h => hg3 nb' (List.mem_cons_of_mem _ h))
      hfr' ((List.nodup_cons.mp (List.map_cons Prod.fst (n, b) fs ▸ hnd)).2)
    refine ⟨w', ?_, ?_⟩
    · rw [stageFiles, hres, hwf]
      exact hrun
    · rw [show fdone ++ (n, b) :: fs = (fdone ++ [(n, b)]) ++ fs by
        rw [List.append_assoc, List.singleton_append]]
      exact hinv'

theorem save_good (a : EWSXFIle) (s : String) (t : Option Bytes)
    (ha : a.existing_file = some s)
    (hd : ∀ dd ∈ a.dirs_list, goodSegB dd = true)
    (hf1 : ∀ nb ∈ a.files_list, nb.1.all goodSegB = true ∧
      (nb.1.length = 1 ∨ nb.1.length = 2))
    (hf2 : ∀ nb ∈ a.files_list, nb.1.length = 2 → nb.1.headD "" ∈ a.dirs_list)
    (hf3 : ∀ nb ∈ a.files_list, ∀ dd ∈ a.dirs_list, nb.1 ≠ [dd])
    (hnd : (a.files_list.map Prod.fst).Nodup) :
    ∃ zout, save a t = .ok zout ∧ zout.compression = ZIP_DEFLATED ∧
      (∀ nb, nb ∈ zout.entries ↔ nb ∈ a.files_list) ∧
      ((zout.entries.map Prod.fst).Nodup) := by
  have hinit : StageInv [] [] [] := by
    refine ⟨List.nodup_nil, fun q b => ?_, fun q => ?_⟩ <;> simp [findFs]
  obtain ⟨w₁, hrun1, hinv₁⟩ := stageDirs_char a.dirs_list [] [] hinit hd
  rw [List.nil_append] at hinv₁
  obtain ⟨w₂, hrun2, hinv₂⟩ := stageFiles_char a.files_list w₁ a.dirs_list []
    hinv₁ hf1 hf2 hf3 (by intro nb _ nb' h; cases h) hnd
  rw [List.nil_append] at hinv₂
  have hstage : stageArchive a t = .ok w₂ := by
    rw [stageArchive.eq_def, ha]
    show (match stageDirs [] a.dirs_list with
          | Except.error _ => Except.error ()
          | Except.ok w =>
            match stageFiles w a.files_list with
            | Except.error _ => Except.error ()
            | Except.ok w' => Except.ok w') = _
    rw [hrun1]
    show (match stageFiles w₁ a.files_list with
          | Except.error _ => Except.error ()
          | Except.ok w' => Except.ok w') = Except.ok w₂
    rw [hrun2]
  refine ⟨{ compression := ZIP_DEFLATED, entries := filesUnder w₂ [] },
    ?_, rfl, ?_, ?_⟩
  · rw [save, hstage]
  · intro nb
    rw [mem_filesUnder_nil w₂ hinv₂.1 nb, hinv₂.2.1 nb.1 nb.2]
    constructor
    · rintro ⟨h1, _⟩
      exact h1
    · intro h1
      refine ⟨h1, ?_⟩
      intro hq
      rcases (hf1 nb h1).2 with h2 | h2 <;> rw [hq] at h2 <;> cases h2
  · exact filesUnder_fst_nodup w₂ hinv₂.1

/-- C4 (amended): for a loaded archive, provided every recorded directory
name is a well-formed single segment, every recorded file path is
well-formed of depth at most 2, each depth-2 file path starts with a
recorded directory name, no file path coincides with a recorded directory
name, and the recorded file paths are distinct — all of which hold for
archives loaded from well-formed shallow zips — `save` writes a deflate
zip containing exactly the recorded files with their paths and bytes;
directories appear only implicitly through file paths, so an empty
recorded directory is absent from the zip.  Outside these provisos `save`
can instead fail outright: directories are recorded by base name only, so
an archive loaded from `a/b/c.txt` stages `a` and `b` as top-level
directories and writing `a/b/c.txt` raises `FileNotFoundError`. -/
theorem claim_C4 (a : EWSXFIle) (s : String) (t : Option Bytes)
    (ha : a.existing_file = some s)
    (hd : ∀ dd ∈ a.dirs_list, goodSegB dd = true)
    (hf1 : ∀ nb ∈ a.files_list, nb.1.all goodSegB = true ∧
      (nb.1.length = 1 ∨ nb.1.length = 2))
    (hf2 : ∀ nb ∈ a.files_list, nb.1.length = 2 → nb.1.headD "" ∈ a.dirs_list)
    (hf3 : ∀ nb ∈ a.files_list, ∀ dd ∈ a.dirs_list, nb.1 ≠ [dd])
    (hnd : (a.files_list.map Prod.fst).Nodup) :
    ∃ zout, save a t = .ok zout ∧ zout.compression = ZIP_DEFLATED ∧
      (∀ nb, nb ∈ zout.entries ↔ nb ∈ a.files_list) := by
  obtain ⟨zout, h1, h2, h3, _⟩ := save_good a s t ha hd hf1 hf2 hf3 hnd
  exact ⟨zout, h1, h2, h3⟩

def aC4 : EWSXFIle :=
  { existing_file := some "A",
    files_list := [(["media", "song.mp3"], [1]), (["main.db"], [2])],
    dirs_list := ["media"] }

/-- C4 witness: saving a loaded archive with `media/song.mp3` and
`main.db` produces a zip with exactly those two file entries. -/
theorem claim_C4_witness :
    aC4.existing_file = some "A" ∧
    ∃ zout, save aC4 none = .ok zout ∧ zout.compression = ZIP_DEFLATED ∧
      (∀ nb, nb ∈ zout.entries ↔ nb ∈ aC4.files_list) :=
  ⟨rfl, claim_C4 aC4 "A" none rfl (by decide) (by decide) (by decide)
    (by decide) (by decide)⟩

/-! ### Claim C1: the load/save round trip (amended) -/

/-- C1 (amended): for archives all of whose entries are well-formed,
non-corrupt file entries at depth at most 2, with distinct names, none of
which is another entry's parent directory, loading and then saving yields
an archive whose reload has the same set of files (byte-identical) and the
same set of directories.  (In general the round trip is lossy: explicit
empty directory entries are dropped — see the counterexample — and deeper
nesting makes `save` fail outright.) -/
theorem claim_C1 (z : List ZEntry) (hz : GoodZip z) (fn fn' : String) :
    ∃ a₁ zout a₂, from_file z fn = .ok a₁ ∧ save a₁ none = .ok zout ∧
      from_file (entriesAsZip zout) fn' = .ok a₂ ∧
      (∀ nb : RPath × Bytes, nb ∈ a₂.files_list ↔ nb ∈ a₁.files_list) ∧
      (∀ dd : String, dd ∈ a₂.dirs_list ↔ dd ∈ a₁.dirs_list) := by
  obtain ⟨a₁, h1, hex, hfi, hdi, hnd⟩ := from_file_good z hz fn
  have hshape : ∀ e ∈ z, e.name.all goodSegB = true ∧
      (e.name.length = 1 ∨ e.name.length = 2) := fun e he =>
    ⟨(hz.1 e he).1, (hz.1 e he).2.1⟩
  have hd : ∀ dd ∈ a₁.dirs_list, goodSegB dd = true := by
    intro dd hdd
    obtain ⟨e, he, hdl⟩ := (hdi dd).mp hdd
    rcases (hshape e he).2 with h1' | h1'
    · obtain ⟨x, hx⟩ := List.length_eq_one.mp h1'
      rw [hx] at hdl
      simp at hdl
    · obtain ⟨x, y, hx⟩ := List.length_eq_two.mp h1'
      rw [hx] at hdl
      simp at hdl
      have hall := (hshape e he).1
      rw [hx, List.all_cons, Bool.and_eq_true] at hall
      rw [← hdl]
      exact hall.1
  have hf1 : ∀ nb ∈ a₁.files_list, nb.1.all goodSegB = true ∧
      (nb.1.length = 1 ∨ nb.1.length = 2) := by
    intro nb hnb
    obtain ⟨e, he, hn, _⟩ := (hfi nb).mp hnb
    rw [← hn]
    exact hshape e he
  have hf2 : ∀ nb ∈ a₁.files_list, nb.1.length = 2 →
      nb.1.headD "" ∈ a₁.dirs_list := by
    intro nb hnb hlen2
    obtain ⟨e, he, hn, _⟩ := (hfi nb).mp hnb
    rw [← hn] at hlen2 ⊢
    obtain ⟨x, y, hx⟩ := List.length_eq_two.mp hlen2
    rw [hx]
    show x ∈ a₁.dirs_list
    refine (hdi x).mpr ⟨e, he, ?_⟩
    rw [hx]
    rfl
  have hf3 : ∀ nb ∈ a₁.files_list, ∀ dd ∈ a₁.dirs_list, nb.1 ≠ [dd] := by
    intro nb hnb dd hdd heq
    obtain ⟨e, he, hn, _⟩ := (hfi nb).mp hnb
    obtain ⟨e', he', hdl⟩ := (hdi dd).mp hdd
    exact hz.2.2 e he e' he' (by rw [hn, heq, hdl])
  obtain ⟨zout, h2, _, hzi, hznd⟩ := save_good a₁ fn none hex hd hf1 hf2 hf3 hnd
  have hz2names : ∀ e'' ∈ entriesAsZip zout, ∃ e ∈ z,
      e''.name = e.name ∧ e''.data = e.data ∧ e''.corrupt = false := by
    intro e'' he''
    obtain ⟨nb, hnb, rfl⟩ := List.mem_map.mp he''
    obtain ⟨e, he, hn, hb⟩ := (hfi nb).mp ((hzi nb).mp hnb)
    exact ⟨e, he, hn.symm, hb.symm, rfl⟩
  have hz2 : GoodZip (entriesAsZip zout) := by
    refine ⟨?_, ?_, ?_⟩
    · intro e'' he''
      obtain ⟨e, he, hn, _, hc⟩ := hz2names e'' he''
      obtain ⟨hA, hB, hC, _⟩ := hz.1 e he
      exact ⟨by rw [hn]; exact hA, by rw [hn]; exact hB, by rw [hn]; exact hC, hc⟩
    · have hmm : (entriesAsZip zout).map (fun e => e.name) =
          zout.entries.map Prod.fst := by
        rw [entriesAsZip, List.map_map]
        rfl
      rw [hmm]
      exact hznd
    · intro e₁ h₁ e₂ h₂
      obtain ⟨eA, heA, hnA, _, _⟩ := hz2names e₁ h₁
      obtain ⟨eB, heB, hnB, _, _⟩ := hz2names e₂ h₂
      rw [hnA, hnB]
      exact hz.2.2 eA heA eB heB
  obtain ⟨a₂, h3, _, hfi₂, hdi₂, _⟩ := from_file_good (entriesAsZip zout) hz2 fn'
  refine ⟨a₁, zout, a₂, h1, h2, h3, ?_, ?_⟩
  · intro nb
    rw [hfi₂ nb, ← hzi nb]
    constructor
    · rintro ⟨e'', he'', hn, hb⟩
      obtain ⟨nb', hnb', rfl⟩ := List.mem_map.mp he''
      obtain ⟨n1, b1⟩ := nb
      obtain ⟨n2, b2⟩ := nb'
      dsimp only at hn hb
      have heq : ((n2, b2) : RPath × Bytes) = (n1, b1) := by
        rw [Prod.mk.injEq]
        exact ⟨hn, hb⟩
      rw [← heq]
      exact hnb'
    · intro hnb
      exact ⟨{ name := nb.1, data := nb.2 },
        List.mem_map.mpr ⟨nb, hnb, rfl⟩, rfl, rfl⟩
  · intro dd
    rw [hdi₂ dd, hdi dd]
    constructor
    · rintro ⟨e'', he'', hdl⟩
      obtain ⟨e, he, hn, _, _⟩ := hz2names e'' he''
      rw [hn] at hdl
      exact ⟨e, he, hdl⟩
    · rintro ⟨e, he, hdl⟩
      have hmem1 : ((e.name, e.data) : RPath × Bytes) ∈ a₁.files_list :=
        (hfi (e.name, e.data)).mpr ⟨e, he, rfl, rfl⟩
      have hmem2 := (hzi (e.name, e.data)).mpr hmem1
      exact ⟨{ name := e.name, data := e.data },
        List.mem_map.mpr ⟨(e.name, e.data), hmem2, rfl⟩, hdl⟩

def zC1 : List ZEntry :=
  [{ name := ["media", "song.mp3"], data := [1] }, { name := ["main.db"], data := [2] }]

/-- C1 witness: a well-formed two-entry archive round-trips. -/
theorem claim_C1_witness :
    GoodZip zC1 ∧
    ∃ a₁ zout a₂, from_file zC1 "A" = .ok a₁ ∧ save a₁ none = .ok zout ∧
      from_file (entriesAsZip zout) "B" = .ok a₂ ∧
      (∀ nb : RPath × Bytes, nb ∈ a₂.files_list ↔ nb ∈ a₁.files_list) ∧
      (∀ dd : String, dd ∈ a₂.dirs_list ↔ dd ∈ a₁.dirs_list) :=
  ⟨by unfold GoodZip; decide, claim_C1 zC1 (by unfold GoodZip; decide) "A" "B"⟩

/-! ### Claim C9: the structure listing (amended) -/

/-- Concatenation of a list of strings. -/
def concatStrs : List String → String
  | [] => ""
  | s :: rest => s ++ concatStrs rest

/-- The text a directory-classified name contributes to the listing: the
name, `/`, a newline, and — if any recorded file string starts with it —
those files indented, each displayed as `x.strip("/" + f)`. -/
def dirChunk (files_set : List String) (f : String) : String :=
  let matched := files_set.filter (fun x => strStartsWith x f)
  f ++ "/" ++ "\n" ++
    (if matched ≠ [] then
      "    " ++ String.intercalate "\n    "
        (matched.map (fun x => pyStrip x ("/" ++ f))) ++ "\n"
     else "")

theorem structStep_dir (fs ex : List String) (st : String) (f : String)
    (hf : is_directory f = true) :
    structStep fs (ex, st) f =
      (ex ++ fs.filter (fun x => strStartsWith x f) ++ [f],
       st ++ dirChunk fs f) := by
  simp only [structStep, dirChunk, hf, if_true]
  by_cases hm : fs.filter (fun x => strStartsWith x f) ≠ []
  · rw [if_pos hm, if_pos hm, Prod.mk.injEq]
    refine ⟨rfl, ?_⟩
    simp only [String.append_assoc]
  · rw [if_neg hm, if_neg hm, Prod.mk.injEq]
    refine ⟨rfl, ?_⟩
    simp only [String.append_assoc, String.append_empty]

theorem structStep_file (fs ex : List String) (st : String) (f : String)
    (hf : is_directory f = false) :
    structStep fs (ex, st) f =
      (ex ++ [f], if f ∈ ex then st else st ++ f) := by
  simp only [structStep, hf]
  rfl

theorem structFold_dirs (fs : List String) (ds : List String) :
    ∀ (acc : List String × String), (∀ d ∈ ds, is_directory d = true) →
    ((ds.foldl (structStep fs) acc).2 =
      acc.2 ++ concatStrs (ds.map (dirChunk fs))) := by
  induction ds with
  | nil => intro acc _; simp [concatStrs, String.append_empty]
  | cons d ds ih =>
    intro acc hd
    rw [List.foldl_cons, List.map_cons]
    obtain ⟨ex, st⟩ := acc
    rw [structStep_dir fs ex st d (hd d (List.mem_cons_self d ds))]
    rw [ih _ (fun d' h => hd d' (List.mem_cons_of_mem d h))]
    show st ++ dirChunk fs d ++ concatStrs (dirChunk fs d :: ds.map (dirChunk fs)).tail
      = st ++ (dirChunk fs d ++ concatStrs (ds.map (dirChunk fs)))
    rw [String.append_assoc]
    rfl

theorem structFold_mono (fs : List String) (l : List String) :
    ∀ (acc : List String × String),
    ∃ t, (l.foldl (structStep fs) acc).2 = acc.2 ++ t := by
  induction l with
  | nil => intro acc; exact ⟨"", (String.append_empty acc.2).symm⟩
  | cons f l ih =>
    intro acc
    rw [List.foldl_cons]
    obtain ⟨ex, st⟩ := acc
    by_cases hf : is_directory f
    · rw [structStep_dir fs ex st f hf]
      obtain ⟨t, ht⟩ := ih (ex ++ fs.filter (fun x => strStartsWith x f) ++ [f],
        st ++ dirChunk fs f)
      exact ⟨dirChunk fs f ++ t, by rw [ht, String.append_assoc]⟩
    · rw [structStep_file fs ex st f (Bool.eq_false_iff.mpr hf)]
      by_cases hm : f ∈ ex
      · rw [if_pos hm]
        obtain ⟨t, ht⟩ := ih (ex ++ [f], st)
        exact ⟨t, ht⟩
      · rw [if_neg hm]
        obtain ⟨t, ht⟩ := ih (ex ++ [f], st ++ f)
        exact ⟨f ++ t, by rw [ht, String.append_assoc]⟩

theorem structFold_explored (fs : List String) (l : List String) :
    ∀ (acc : List String × String) (x : String),
    x ∈ (l.foldl (structStep fs) acc).1 →
    x ∈ acc.1 ∨ x ∈ l ∨
      ∃ d ∈ l, is_directory d = true ∧ x ∈ fs ∧ strStartsWith x d = true := by
  induction l with
  | nil =>
    intro acc x hx
    exact Or.inl hx
  | cons f l ih =>
    intro acc x hx
    rw [List.foldl_cons] at hx
    obtain ⟨ex, st⟩ := acc
    by_cases hf : is_directory f
    · rw [structStep_dir fs ex st f hf] at hx
      rcases ih _ x hx with hx | hx | hx
      · rcases List.mem_append.mp hx with hx | hx
        · rcases List.mem_append.mp hx with hx | hx
          · exact Or.inl hx
          · have hmf := List.mem_filter.mp hx
            exact Or.inr (Or.inr ⟨f, List.mem_cons_self f l, hf, hmf.1, hmf.2⟩)
        · exact Or.inr (Or.inl
            (by rw [List.mem_singleton.mp hx]; exact List.mem_cons_self f l))
      · exact Or.inr (Or.inl (List.mem_cons_of_mem f hx))
      · obtain ⟨d, hd1, hd2⟩ := hx
        exact Or.inr (Or.inr ⟨d, List.mem_cons_of_mem f hd1, hd2⟩)
    · rw [structStep_file fs ex st f (Bool.eq_false_iff.mpr hf)] at hx
      rcases ih _ x hx with hx | hx | hx
      · rcases List.mem_append.mp hx with hx | hx
        · exact Or.inl hx
        · exact Or.inr (Or.inl (by rw [List.mem_singleton.mp hx]; exact List.mem_cons_self f l))
      · exact Or.inr (Or.inl (List.mem_cons_of_mem f hx))
      · obtain ⟨d, hd1, hd2⟩ := hx
        exact Or.inr (Or.inr ⟨d, List.mem_cons_of_mem f hd1, hd2⟩)

theorem exists_first_split {x : String} {l : List String} (h : x ∈ l) :
    ∃ l₁ l₂, l = l₁ ++ x :: l₂ ∧ x ∉ l₁ := by
  induction l with
  | nil => cases h
  | cons y l ih =>
    by_cases hy : x = y
    · subst hy
      exact ⟨[], l, rfl, List.not_mem_nil x⟩
    · rcases List.mem_cons.mp h with h | h
      · exact absurd h hy
      · obtain ⟨l₁, l₂, hl, hx⟩ := ih h
        refine ⟨y :: l₁, l₂, by rw [hl, List.cons_append], ?_⟩
        intro hmem
        rcases List.mem_cons.mp hmem with hmem | hmem
        · exact hy hmem
        · exact hx hmem

theorem structureOf_existing (a : EWSXFIle) (s : String)
    (ha : a.existing_file = some s) :
    structureOf a =
      ((a.dirs_list ++ a.files_list.map (fun nb => nameString nb.1)).foldl
        (structStep (a.files_list.map (fun nb => nameString nb.1))) ([], "")).2 := by
  simp only [structureOf, ha]

/-- C9 (amended): `structure()` reads the archive and leaves it unchanged;
provided every recorded directory name is classified as a directory by the
heuristic and every recorded file string as a file, the output starts with
the directory listing in `dirs_list` order — each directory name followed
by `/`, a newline, and its matching files indented (their displayed names
mangled by `str.strip`) — and every file string matched by no directory
appears in the output.  (A directory with a dot in its name breaks this
shape — see the counterexample.) -/
theorem claim_C9 (a : EWSXFIle) (s : String) (ha : a.existing_file = some s)
    (hd : ∀ d ∈ a.dirs_list, is_directory d = true)
    (hf : ∀ x ∈ a.files_list.map (fun nb => nameString nb.1),
      is_directory x = false) :
    (structureRun a).2 = a ∧
    (∃ t, structureOf a =
      concatStrs (a.dirs_list.map
        (dirChunk (a.files_list.map (fun nb => nameString nb.1)))) ++ t) ∧
    (∀ x ∈ a.files_list.map (fun nb => nameString nb.1),
      (∀ d ∈ a.dirs_list, strStartsWith x d = false) →
      ∃ u v, structureOf a = u ++ (x ++ v)) := by
  have hmain := structureOf_existing a s ha
  set fs := a.files_list.map (fun nb => nameString nb.1) with hfs
  refine ⟨rfl, ?_, ?_⟩
  · rw [hmain, List.foldl_append]
    obtain ⟨t, ht⟩ := structFold_mono fs fs (a.dirs_list.foldl (structStep fs) ([], ""))
    rw [ht, structFold_dirs fs a.dirs_list ([], "") hd]
    exact ⟨t, by rw [String.empty_append]⟩
  · intro x hx hstart
    obtain ⟨l₁, l₂, hl, hxl₁⟩ := exists_first_split hx
    set P := a.dirs_list.foldl (structStep fs) ([], "") with hPdef
    set Q := l₁.foldl (structStep fs) P with hQdef
    have hfold : structureOf a =
        (l₂.foldl (structStep fs) (structStep fs Q x)).2 := by
      rw [hmain, List.foldl_append]
      have hcong := congrArg
        (fun (l : List String) => (l.foldl (structStep fs) P).2) hl
      dsimp only at hcong
      rw [hcong, List.foldl_append, List.foldl_cons]
    have hxQ : x ∉ Q.1 := by
      intro hmem
      rw [hQdef] at hmem
      rcases structFold_explored fs l₁ P x hmem with hm | hm | hm
      · rw [hPdef] at hm
        rcases structFold_explored fs a.dirs_list ([], "") x hm with hm | hm | hm
        · cases hm
        · have h1 := hd x hm
          have h2 := hf x hx
          rw [h1] at h2
          cases h2
        · obtain ⟨d, hd1, _, _, hd4⟩ := hm
          rw [hstart d hd1] at hd4
          cases hd4
      · exact hxl₁ hm
      · obtain ⟨d, hd1, hd2, _, _⟩ := hm
        have hsub : d ∈ fs := by
          rw [hl]
          exact List.mem_append_left _ hd1
        rw [hf d hsub] at hd2
        cases hd2
    have hstep : structStep fs Q x = (Q.1 ++ [x], Q.2 ++ x) := by
      have hQpair : Q = (Q.1, Q.2) := rfl
      rw [hQpair, structStep_file fs Q.1 Q.2 x (hf x hx)]
      rw [if_neg hxQ]
    obtain ⟨v, hv⟩ := structFold_mono fs l₂ (Q.1 ++ [x], Q.2 ++ x)
    refine ⟨Q.2, v, ?_⟩
    rw [hfold, hstep, hv]
    dsimp only
    rw [String.append_assoc]

def aC9 : EWSXFIle :=
  { existing_file := some "A",
    files_list := [(["media", "song.mp3"], [1]), (["main.db"], [2])],
    dirs_list := ["media"] }

/-- C9 witness: a loaded archive with the dot-free directory `media`. -/
theorem claim_C9_witness :
    (∀ d ∈ aC9.dirs_list, is_directory d = true) ∧
    ((structureRun aC9).2 = aC9 ∧
     (∃ t, structureOf aC9 =
       concatStrs (aC9.dirs_list.map
         (dirChunk (aC9.files_list.map (fun nb => nameString nb.1)))) ++ t) ∧
     (∀ x ∈ aC9.files_list.map (fun nb => nameString nb.1),
       (∀ d ∈ aC9.dirs_list, strStartsWith x d = false) →
       ∃ u v, structureOf aC9 = u ++ (x ++ v))) :=
  ⟨by decide, claim_C9 aC9 "A" rfl (by decide) (by decide)⟩

/-! ### Claim C8: expand_to_dir (amended) -/

/-- Bool test for "a regular file sits at `p`". -/
def isFileAt (w : World) (p : RPath) : Bool :=
  match findFs w p with
  | some (.file _) => true
  | _ => false

theorem prefix_drop_append (sp l : RPath) (h : sp <+: l) :
    sp ++ l.drop sp.length = l := by
  obtain ⟨t, rfl⟩ := h
  rw [List.drop_left]

theorem singleton_of_dropLast_nil (l : RPath) (h1 : l.dropLast = [])
    (h2 : l ≠ []) : l = [l.getLastD ""] := by
  cases l with
  | nil => exact absurd rfl h2
  | cons a t =>
    cases t with
    | nil => rfl
    | cons b t' => cases h1

theorem mem_listdirNames_nil (w : World) (x : String) :
    x ∈ listdirNames w [] ↔ ∃ e, ([x], e) ∈ w := by
  constructor
  · intro h
    rw [listdirNames, List.mem_filterMap] at h
    obtain ⟨⟨q, e⟩, hq, heq⟩ := h
    by_cases hc : q.dropLast = [] ∧ q ≠ []
    · rw [if_pos hc] at heq
      obtain hx : q.getLastD "" = x := Option.some.inj heq
      have hsing := singleton_of_dropLast_nil q hc.1 hc.2
      rw [hx] at hsing
      exact ⟨e, hsing ▸ hq⟩
    · rw [if_neg hc] at heq
      cases heq
  · rintro ⟨e, he⟩
    rw [listdirNames, List.mem_filterMap]
    exact ⟨([x], e), he, by simp⟩

theorem listdirNames_nil_nodup (w : World) (hnd : (keysW w).Nodup) :
    (listdirNames w []).Nodup := by
  induction w with
  | nil => exact List.nodup_nil
  | cons qe rest ih =>
    obtain ⟨q, e⟩ := qe
    rw [keysW_cons, List.nodup_cons] at hnd
    rw [listdirNames, List.filterMap_cons]
    by_cases hc : q.dropLast = [] ∧ q ≠ []
    · rw [if_pos hc]
      rw [show (rest.filterMap fun qe =>
          if qe.1.dropLast = [] ∧ qe.1 ≠ [] then some (qe.1.getLastD "") else none)
          = listdirNames rest [] from rfl]
      rw [List.nodup_cons]
      refine ⟨fun hmem => ?_, ih hnd.2⟩
      obtain ⟨e', he'⟩ := (mem_listdirNames_nil rest (q.getLastD "")).mp hmem
      have hsing := singleton_of_dropLast_nil q hc.1 hc.2
      exact hnd.1 (by
        rw [hsing]
        exact List.mem_map.mpr ⟨([q.getLastD ""], e'), he', rfl⟩)
    · rw [if_neg hc]
      exact ih hnd.2

theorem makedirs_ok_pres (segs : List String) (w : World) (cur : RPath)
    (w' : World) (h : makedirs w cur segs = .ok w') :
    ∀ p e, findFs w p = some e → findFs w' p = some e := by
  induction segs generalizing w cur with
  | nil =>
    obtain rfl : w = w' := Except.ok.inj h
    exact fun p e hp => hp
  | cons s rest ih =>
    rw [makedirs] at h
    cases he : ensureDir w (normStep cur s) with
    | error w₁ => rw [he] at h; cases h
    | ok w₁ =>
      rw [he] at h
      intro p e hp
      refine ih w₁ (normStep cur s) h p e ?_
      rcases ensureDir_ok_shape w (normStep cur s) w₁ he with rfl | ⟨_, hnone, rfl⟩
      · exact hp
      · rw [findFs_setFs_ne w (normStep cur s) p .dir
          (fun hq => by rw [hq, hnone] at hp; cases hp)]
        exact hp

theorem copyTreeInto_find_or (src : World) (sp dst : RPath) :
    ∀ (w : World) (q : RPath),
    findFs (copyTreeInto src sp w dst) q = findFs w q ∨
      ∃ pe ∈ src, sp <+: pe.1 ∧ pe.1 ≠ sp ∧
        q = dst ++ pe.1.drop sp.length := by
  induction src with
  | nil => intro w q; exact Or.inl rfl
  | cons pe rest ih =>
    intro w q
    have hstep : copyTreeInto (pe :: rest) sp w dst =
        copyTreeInto rest sp
          (if sp <+: pe.1 ∧ pe.1 ≠ sp then
            setFs w (dst ++ pe.1.drop sp.length) pe.2 else w) dst := rfl
    rw [hstep]
    rcases ih _ q with h | h
    · rw [h]
      by_cases hc : sp <+: pe.1 ∧ pe.1 ≠ sp
      · rw [if_pos hc]
        by_cases hq : q = dst ++ pe.1.drop sp.length
        · exact Or.inr ⟨pe, List.mem_cons_self _ _, hc.1, hc.2, hq⟩
        · rw [findFs_setFs_ne _ _ _ _ hq]
          exact Or.inl rfl
      · rw [if_neg hc]
        exact Or.inl rfl
    · obtain ⟨pe', hmem, h1, h2, h3⟩ := h
      exact Or.inr ⟨pe', List.mem_cons_of_mem _ hmem, h1, h2, h3⟩

theorem copyTreeInto_find_miss (src : World) (sp dst : RPath) (w : World)
    (q : RPath)
    (h : ∀ pe ∈ src, sp <+: pe.1 → pe.1 ≠ sp →
      q ≠ dst ++ pe.1.drop sp.length) :
    findFs (copyTreeInto src sp w dst) q = findFs w q := by
  rcases copyTreeInto_find_or src sp dst w q with h1 | h1
  · exact h1
  · obtain ⟨pe, hmem, h2, h3, h4⟩ := h1
    exact absurd h4 (h pe hmem h2 h3)

theorem copyTreeInto_find_hit (sp dst : RPath) (pe : RPath × FsEntry)
    (h1 : sp <+: pe.1) (h2 : pe.1 ≠ sp) :
    ∀ (src : World), (keysW src).Nodup → pe ∈ src → ∀ w,
    findFs (copyTreeInto src sp w dst) (dst ++ pe.1.drop sp.length) =
      some pe.2 := by
  intro src
  induction src with
  | nil => intro _ hmem _; cases hmem
  | cons qe rest ih =>
    intro hknd hmem w
    rw [keysW_cons, List.nodup_cons] at hknd
    have hstep : copyTreeInto (qe :: rest) sp w dst =
        copyTreeInto rest sp
          (if sp <+: qe.1 ∧ qe.1 ≠ sp then
            setFs w (dst ++ qe.1.drop sp.length) qe.2 else w) dst := rfl
    rw [hstep]
    rcases List.mem_cons.mp hmem with hmem | hmem
    · obtain rfl : pe = qe := hmem
      rw [if_pos ⟨h1, h2⟩]
      rw [copyTreeInto_find_miss rest sp dst _ _ ?_]
      · exact findFs_setFs_self _ _ _
      · intro pe' hpe' h3 h4 h5
        have hdrop : pe'.1.drop sp.length = pe.1.drop sp.length :=
          (List.append_cancel_left h5).symm
        have he1 : pe'.1 = pe.1 := by
          rw [← prefix_drop_append sp pe'.1 h3, hdrop,
            prefix_drop_append sp pe.1 h1]
        exact hknd.1 (he1 ▸ List.mem_map_of_mem Prod.fst hpe')
    · exact ih hknd.2 hmem _

/-- Invariant of the copy loop of `expand_to_dir`: relative to the world
`base` as it was when the loop started, (1) everything outside the new
schedule directory `sp` is untouched, (2) staged entries whose top-level
item has been processed appear under `sp`, (3) everything below `sp` comes
from a processed staged entry. -/
def CopyInv (stag : World) (sp : RPath) (base : World) (done : List String)
    (w : World) : Prop :=
  (∀ p, ¬ (sp <+: p ∧ p ≠ sp) → findFs w p = findFs base p) ∧
  (∀ pe ∈ stag, pe.1.headD "" ∈ done → findFs w (sp ++ pe.1) = some pe.2) ∧
  (∀ p e, findFs w p = some e → sp <+: p → p ≠ sp →
    ∃ pe ∈ stag, p = sp ++ pe.1 ∧ pe.1.headD "" ∈ done)

theorem cons_of_headD (l : RPath) (h : l ≠ []) : l = l.headD "" :: l.tail := by
  cases l with
  | nil => exact absurd rfl h
  | cons a t => rfl

theorem sp_cons_ne (sp : RPath) (nm : String) : sp ++ [nm] ≠ sp := by
  intro h
  simpa using congrArg List.length h

theorem sp_append_ne (sp : RPath) (l : RPath) (h : l ≠ []) : sp ++ l ≠ sp := by
  intro hq
  apply h
  have := congrArg List.length hq
  simp at this
  exact this

theorem eq_singleton_headD (l : RPath) (h1 : l ≠ []) (h2 : l.tail = []) :
    l = [l.headD ""] := by
  cases l with
  | nil => exact absurd rfl h1
  | cons a t =>
    cases t with
    | nil => rfl
    | cons b t' => cases h2

theorem copyInv_file_step (stag : World) (sp : RPath) (base : World)
    (done : List String) (w : World) (nm : String) (b : Bytes)
    (hknd : (keysW stag).Nodup)
    (hne : ∀ pe ∈ stag, pe.1 ≠ [])
    (hanc : ∀ pe ∈ stag, 2 ≤ pe.1.length →
      findFs stag [pe.1.headD ""] = some .dir)
    (hfiletag : findFs stag [nm] = some (.file b))
    (hnm : nm ∉ done)
    (hinv : CopyInv stag sp base done w) :
    CopyInv stag sp base (done ++ [nm]) (setFs w (sp ++ [nm]) (.file b)) := by
  obtain ⟨hA, hB, hC⟩ := hinv
  refine ⟨?_, ?_, ?_⟩
  · intro p hp
    rw [findFs_setFs_ne w (sp ++ [nm]) p _ ?_]
    · exact hA p hp
    · intro hq
      exact hp (hq ▸ ⟨List.prefix_append sp [nm], sp_cons_ne sp nm⟩)
  · intro pe hpe hmem
    rcases List.mem_append.mp hmem with hmem | hmem
    · rw [findFs_setFs_ne w (sp ++ [nm]) _ _ ?_]
      · exact hB pe hpe hmem
      · intro hq
        have := List.append_cancel_left hq
        rw [this] at hmem
        simp at hmem
        exact hnm hmem
    · have hhead : pe.1.headD "" = nm := List.mem_singleton.mp hmem
      have hcons := cons_of_headD pe.1 (hne pe hpe)
      rw [hhead] at hcons
      by_cases htail : pe.1.tail = []
      · have hsing : pe.1 = [nm] := by rw [hcons, htail]
        have hfind := findFs_of_mem stag pe.1 pe.2 hknd hpe
        rw [hsing, hfiletag] at hfind
        have hval : pe.2 = FsEntry.file b := (Option.some.inj hfind).symm
        rw [hsing, hval]
        exact findFs_setFs_self w _ _
      · exfalso
        have hlen : 2 ≤ pe.1.length := by
          rw [hcons]
          cases ht : pe.1.tail with
          | nil => exact absurd ht htail
          | cons c t' => simp
        have hdd := hanc pe hpe hlen
        rw [hhead] at hdd
        rw [hdd] at hfiletag
        cases hfiletag
  · intro p e hp hpre hne2
    rw [findFs_setFs_cases] at hp
    by_cases hq : p = sp ++ [nm]
    · refine ⟨([nm], .file b), mem_of_findFs stag [nm] _ hfiletag, hq, ?_⟩
      simp
    · rw [if_neg hq] at hp
      obtain ⟨pe, hpe, h1, h2⟩ := hC p e hp hpre hne2
      exact ⟨pe, hpe, h1, List.mem_append_left _ h2⟩

theorem copyInv_dir_step (stag : World) (sp : RPath) (base : World)
    (done : List String) (w : World) (nm : String)
    (hknd : (keysW stag).Nodup)
    (hne : ∀ pe ∈ stag, pe.1 ≠ [])
    (hdirstag : findFs stag [nm] = some .dir)
    (hnm : nm ∉ done)
    (hinv : CopyInv stag sp base done w) :
    CopyInv stag sp base (done ++ [nm])
      (copyTreeInto stag [nm] (setFs w (sp ++ [nm]) .dir) (sp ++ [nm])) := by
  obtain ⟨hA, hB, hC⟩ := hinv
  have hkey : ∀ (l : RPath), [nm] <+: l →
      (sp ++ [nm]) ++ l.drop 1 = sp ++ l := by
    intro l hl
    obtain ⟨t, rfl⟩ := hl
    rw [show ([nm] ++ t).drop 1 = t from rfl, List.append_assoc]
  refine ⟨?_, ?_, ?_⟩
  · intro p hp
    rw [copyTreeInto_find_miss stag [nm] (sp ++ [nm]) _ p ?_]
    · rw [findFs_setFs_ne w (sp ++ [nm]) p _ ?_]
      · exact hA p hp
      · intro hq
        exact hp (hq ▸ ⟨List.prefix_append sp [nm], sp_cons_ne sp nm⟩)
    · intro pe hpe h1 h2 h3
      rw [show [nm].length = 1 from rfl, hkey pe.1 h1] at h3
      exact hp (h3 ▸ ⟨List.prefix_append sp pe.1, sp_append_ne sp pe.1 (hne pe hpe)⟩)
  · intro pe hpe hmem
    rcases List.mem_append.mp hmem with hmem | hmem
    · -- processed earlier: untouched by this iteration
      rw [copyTreeInto_find_miss stag [nm] (sp ++ [nm]) _ _ ?_]
      · rw [findFs_setFs_ne w (sp ++ [nm]) _ _ ?_]
        · exact hB pe hpe hmem
        · intro hq
          have := List.append_cancel_left hq
          rw [this] at hmem
          simp at hmem
          exact hnm hmem
      · intro pe' hpe' h1 h2 h3
        rw [show [nm].length = 1 from rfl, hkey pe'.1 h1] at h3
        have heq := List.append_cancel_left h3
        obtain ⟨t, ht⟩ := h1
        rw [heq] at hmem
        rw [← ht] at hmem
        simp at hmem
        exact hnm hmem
    · have hhead : pe.1.headD "" = nm := List.mem_singleton.mp hmem
      have hcons := cons_of_headD pe.1 (hne pe hpe)
      rw [hhead] at hcons
      by_cases htail : pe.1.tail = []
      · have hsing : pe.1 = [nm] := by rw [hcons, htail]
        have hfind := findFs_of_mem stag pe.1 pe.2 hknd hpe
        rw [hsing, hdirstag] at hfind
        have hval : pe.2 = FsEntry.dir := (Option.some.inj hfind).symm
        rw [hsing, hval]
        rw [copyTreeInto_find_miss stag [nm] (sp ++ [nm]) _ _ ?_]
        · exact findFs_setFs_self w _ _
        · intro pe' hpe' h1 h2 h3
          rw [show [nm].length = 1 from rfl, hkey pe'.1 h1] at h3
          have heq := List.append_cancel_left h3
          obtain ⟨t, ht⟩ := h1
          rw [← ht] at heq
          cases t with
          | nil => exact h2 (by rw [← ht]; rfl)
          | cons c t' => simp at heq
      · have hpre1 : [nm] <+: pe.1 := ⟨pe.1.tail, hcons.symm⟩
        have hne1 : pe.1 ≠ [nm] := by
          intro hq
          exact htail (by rw [hq]; rfl)
        have hhit := copyTreeInto_find_hit [nm] (sp ++ [nm])
          pe hpre1 hne1 stag hknd hpe (setFs w (sp ++ [nm]) .dir)
        rw [show [nm].length = 1 from rfl, hkey pe.1 hpre1] at hhit
        exact hhit
  · intro p e hp hpre hne2
    rcases copyTreeInto_find_or stag [nm] (sp ++ [nm])
      (setFs w (sp ++ [nm]) .dir) p with hor | hor
    · rw [hor, findFs_setFs_cases] at hp
      by_cases hq : p = sp ++ [nm]
      · refine ⟨([nm], .dir), mem_of_findFs stag [nm] _ hdirstag, hq, ?_⟩
        simp
      · rw [if_neg hq] at hp
        obtain ⟨pe, hpe, h1, h2⟩ := hC p e hp hpre hne2
        exact ⟨pe, hpe, h1, List.mem_append_left _ h2⟩
    · obtain ⟨pe, hpe, h1, h2, h3⟩ := hor
      refine ⟨pe, hpe, ?_, ?_⟩
      · rw [h3, show [nm].length = 1 from rfl, hkey pe.1 h1]
      · obtain ⟨t, ht⟩ := h1
        rw [← ht]
        simp

theorem copyItems_char (stag : World) (sp : RPath) (base : World)
    (hknd : (keysW stag).Nodup)
    (hne : ∀ pe ∈ stag, pe.1 ≠ [])
    (hanc : ∀ pe ∈ stag, 2 ≤ pe.1.length →
      findFs stag [pe.1.headD ""] = some .dir)
    (hcls : ∀ nm ∈ listdirNames stag [],
      (is_directory nm = true → findFs stag [nm] = some .dir) ∧
      (is_directory nm = false → isFileAt stag [nm] = true))
    (hspdir : findFs base sp = some .dir) :
    ∀ (names : List String), names.Nodup →
      (∀ nm ∈ names, nm ∈ listdirNames stag []) →
      ∀ (done : List String) (w : World),
      (∀ nm ∈ names, nm ∉ done) →
      CopyInv stag sp base done w →
      ∃ w', copyItems stag sp w names = .ok w' ∧
        CopyInv stag sp base (done ++ names) w' := by
  intro names
  induction names with
  | nil =>
    intro _ _ done w _ hinv
    exact ⟨w, rfl, by simpa using hinv⟩
  | cons nm rest ih =>
    intro hnd hsub done w hdis hinv
    rw [List.nodup_cons] at hnd
    have hnm_nm : nm ∉ done := hdis nm (List.mem_cons_self nm rest)
    have htarget : findFs w (sp ++ [nm]) = none := by
      cases hx : findFs w (sp ++ [nm]) with
      | none => rfl
      | some e =>
        obtain ⟨pe, hpe, heq, hdone⟩ := hinv.2.2 (sp ++ [nm]) e hx
          (List.prefix_append sp [nm]) (sp_cons_ne sp nm)
        have hsing : [nm] = pe.1 := List.append_cancel_left heq
        rw [← hsing] at hdone
        simp at hdone
        exact (hnm_nm hdone).elim
    have hparent : findFs w sp = some .dir := by
      rw [hinv.1 sp (fun hq => hq.2 rfl)]
      exact hspdir
    have hdis' : ∀ nm' ∈ rest, nm' ∉ done ++ [nm] := by
      intro nm' hnm' hmem
      rcases List.mem_append.mp hmem with hmem | hmem
      · exact hdis nm' (List.mem_cons_of_mem nm hnm') hmem
      · exact hnd.1 ((List.mem_singleton.mp hmem) ▸ hnm')
    have hsub' : ∀ nm' ∈ rest, nm' ∈ listdirNames stag [] :=
      fun nm' h => hsub nm' (List.mem_cons_of_mem nm h)
    have hunfold : copyItems stag sp w (nm :: rest) =
        if is_directory nm = true then
          match mkdirStrict w (sp ++ [nm]) with
          | .error _ => .error ()
          | .ok w₁ =>
            match findFs stag [nm] with
            | some .dir =>
              copyItems stag sp (copyTreeInto stag [nm] w₁ (sp ++ [nm])) rest
            | _ => .error ()
        else
          match findFs stag [nm] with
          | some (.file b) =>
            match writeFile w (sp ++ [nm]) b with
            | none => .error ()
            | some w' => copyItems stag sp w' rest
          | _ => .error () := rfl
    by_cases hcase : is_directory nm = true
    · have hdirstag := (hcls nm (hsub nm (List.mem_cons_self nm rest))).1 hcase
      have hmkd : mkdirStrict w (sp ++ [nm]) =
          .ok (setFs w (sp ++ [nm]) .dir) := by
        rw [mkdirStrict, htarget]
        rw [if_neg (by simp)]
        rw [if_pos (Or.inr (by rw [List.dropLast_concat]; exact hparent))]
      have hstep_eq : copyItems stag sp w (nm :: rest) =
          copyItems stag sp
            (copyTreeInto stag [nm] (setFs w (sp ++ [nm]) .dir) (sp ++ [nm]))
            rest := by
        rw [hunfold, if_pos hcase, hmkd, hdirstag]
      obtain ⟨w', hrun, hinv'⟩ := ih hnd.2 hsub' (done ++ [nm]) _ hdis'
        (copyInv_dir_step stag sp base done w nm hknd hne hdirstag hnm_nm hinv)
      refine ⟨w', by rw [hstep_eq]; exact hrun, ?_⟩
      rw [show done ++ nm :: rest = (done ++ [nm]) ++ rest by
        rw [List.append_assoc, List.singleton_append]]
      exact hinv'
    · have hcase' : is_directory nm = false := Bool.eq_false_iff.mpr hcase
      obtain ⟨b, hfiletag⟩ : ∃ b, findFs stag [nm] = some (.file b) := by
        have hfileb := (hcls nm (hsub nm (List.mem_cons_self nm rest))).2 hcase'
        unfold isFileAt at hfileb
        cases hx : findFs stag [nm] with
        | none => rw [hx] at hfileb; simp at hfileb
        | some e =>
          cases e with
          | dir => rw [hx] at hfileb; simp at hfileb
          | file bb => exact ⟨bb, rfl⟩
      have hwf : writeFile w (sp ++ [nm]) b =
          some (setFs w (sp ++ [nm]) (.file b)) := by
        rw [writeFile, if_neg (by simp),
          if_pos (Or.inr (by rw [List.dropLast_concat]; exact hparent)), htarget]
      have hstep_eq : copyItems stag sp w (nm :: rest) =
          copyItems stag sp (setFs w (sp ++ [nm]) (.file b)) rest := by
        rw [hunfold, if_neg (by simp [hcase']), hfiletag]
        show (match writeFile w (sp ++ [nm]) b with
          | none => Except.error ()
          | some w' => copyItems stag sp w' rest) =
          copyItems stag sp (setFs w (sp ++ [nm]) (.file b)) rest
        rw [hwf]
      obtain ⟨w', hrun, hinv'⟩ := ih hnd.2 hsub' (done ++ [nm]) _ hdis'
        (copyInv_file_step stag sp base done w nm b hknd hne hanc hfiletag
          hnm_nm hinv)
      refine ⟨w', by rw [hstep_eq]; exact hrun, ?_⟩
      rw [show done ++ nm :: rest = (done ++ [nm]) ++ rest by
        rw [List.append_assoc, List.singleton_append]]
      exact hinv'

theorem goodSegB_schedule (t : String) : goodSegB ("schedule" ++ t) = true := by
  rw [goodSegB]
  apply decide_eq_true
  have hlen : ("schedule" ++ t).length = 8 + t.length := by
    rw [String.length_append]
    rfl
  refine ⟨fun h => ?_, fun h => ?_, fun h => ?_⟩
  · have hq := congrArg String.length h
    rw [hlen, show String.length "" = 0 from by decide] at hq
    omega
  · have hq := congrArg String.length h
    rw [hlen, show String.length "." = 1 from by decide] at hq
    omega
  · have hq := congrArg String.length h
    rw [hlen, show String.length ".." = 2 from by decide] at hq
    omega

theorem ensureDir_ok_dir (w : World) (p : RPath) (w₀ : World)
    (h : ensureDir w p = .ok w₀) (hp : p ≠ []) : findFs w₀ p = some .dir := by
  rw [ensureDir, if_neg hp] at h
  cases hf : findFs w p with
  | none =>
    rw [hf] at h
    obtain rfl : setFs w p .dir = w₀ := Except.ok.inj h
    exact findFs_setFs_self w p .dir
  | some e =>
    cases e with
    | dir =>
      rw [hf] at h
      obtain rfl : w = w₀ := Except.ok.inj h
      exact hf
    | file bb => rw [hf] at h; cases h

theorem makedirs_append (l₁ l₂ : List String) : ∀ (w : World) (cur : RPath),
    makedirs w cur (l₁ ++ l₂) =
      match makedirs w cur l₁ with
      | .error w' => .error w'
      | .ok w' => makedirs w' (resolvePath cur l₁) l₂ := by
  induction l₁ with
  | nil => intro w cur; rfl
  | cons s rest ih =>
    intro w cur
    rw [List.cons_append, makedirs, makedirs]
    cases he : ensureDir w (normStep cur s) with
    | error w' => simp only [he]
    | ok w' =>
      simp only [he]
      rw [ih w' (normStep cur s)]
      rfl

theorem makedirs_idem (segs : List String) : ∀ (w : World) (cur : RPath)
    (w' : World), makedirs w cur segs = .ok w' → makedirs w' cur segs = .ok w' := by
  induction segs with
  | nil =>
    intro w cur w' _
    rfl
  | cons s rest ih =>
    intro w cur w' h
    have h2 : (match ensureDir w (normStep cur s) with
      | .error w0 => Except.error w0
      | .ok w0 => makedirs w0 (normStep cur s) rest) = Except.ok w' := h
    cases he : ensureDir w (normStep cur s) with
    | error w₀ => rw [he] at h2; cases h2
    | ok w₀ =>
      rw [he] at h2
      have h3 : makedirs w₀ (normStep cur s) rest = .ok w' := h2
      have hens2 : ensureDir w' (normStep cur s) = .ok w' := by
        by_cases hp : normStep cur s = []
        · rw [ensureDir, if_pos hp]
        · have hd0 : findFs w₀ (normStep cur s) = some .dir :=
            ensureDir_ok_dir w (normStep cur s) w₀ he hp
          have hd1 : findFs w' (normStep cur s) = some .dir :=
            (makedirs_ok_props rest w₀ (normStep cur s) w' h3).1 _ hd0
          rw [ensureDir, if_neg hp, hd1]
      rw [makedirs]
      simp only [hens2]
      exact ih w₀ (normStep cur s) w' h3

/-- Yields the staging tree and base world used by the C8 witness. -/
def aC8w : EWSXFIle :=
  { existing_file := some "NewSchedule.ewsx"
    files_list := [(["main.db"], [7])]
    dirs_list := ["media"] }

def wC8 : World :=
  [(["out"], .dir), (["out", "schedule1"], .dir), (["out", "schedule2"], .dir)]

def stagC8 : World := [(["media"], .dir), (["main.db"], .file [7])]

/-- Claim C8 (amended): `expand_to_dir` creates `output_dir` if absent and
copies the staged archive into `output_dir/schedule{n+1}` where `n` is the
current entry count of `output_dir`.  Provided the staging tree is
well-formed (distinct, nonempty entry paths, every nested entry lying
below a top-level directory of the tree), every top-level staged name is
classified by the dot heuristic consistently with its actual kind — a
directory name without a dot, a file name with one; otherwise the copy
loop raises `IsADirectoryError`/`NotADirectoryError` — the `output_dir`
path is a plain relative path, and no existing entry lies at or under the
numbered path (true e.g. when the entries are exactly
`schedule1..scheduleN`), the operation succeeds, the numbered
subdirectory is new, every path not under it keeps its previous value,
the staged tree is materialised below it exactly, and nothing else
appears below it. -/
theorem claim_C8 (a : EWSXFIle) (template : Option Bytes) (w w₁ stag : World)
    (output_dir : List String) (sn : String)
    (houtg : output_dir.all goodSegB = true)
    (hmk1 : makedirs w [] output_dir = .ok w₁)
    (hstage : stageArchive a template = .ok stag)
    (hknd : (keysW stag).Nodup)
    (hne : ∀ pe ∈ stag, pe.1 ≠ [])
    (hanc : ∀ pe ∈ stag, 2 ≤ pe.1.length →
      findFs stag [pe.1.headD ""] = some .dir)
    (hcls : ∀ nm ∈ listdirNames stag [],
      (is_directory nm = true → findFs stag [nm] = some .dir) ∧
      (is_directory nm = false → isFileAt stag [nm] = true))
    (hsn : sn = "schedule" ++ toString ((listdirNames w₁ output_dir).length + 1))
    (hscl : ∀ pe ∈ w₁, ¬ (output_dir ++ [sn]) <+: pe.1) :
    ∃ w', expand_to_dir a template w output_dir = .ok w' ∧
      findFs w' (output_dir ++ [sn]) = some .dir ∧
      (∀ p, ¬ (output_dir ++ [sn]) <+: p → findFs w' p = findFs w₁ p) ∧
      (∀ pe ∈ stag, findFs w' ((output_dir ++ [sn]) ++ pe.1) = some pe.2) ∧
      (∀ p e, findFs w' p = some e → (output_dir ++ [sn]) <+: p →
        p ≠ output_dir ++ [sn] →
        ∃ pe ∈ stag, p = (output_dir ++ [sn]) ++ pe.1) := by
  have hout : resolvePath [] output_dir = output_dir :=
    (resolvePath_good output_dir [] houtg).trans (List.nil_append output_dir)
  have hgood_sn : sn ≠ "" ∧ sn ≠ "." ∧ sn ≠ ".." := by
    rw [hsn]
    exact of_decide_eq_true (goodSegB_schedule _)
  have hns : normStep output_dir sn = output_dir ++ [sn] := by
    simp [normStep, hgood_sn.1, hgood_sn.2.1, hgood_sn.2.2]
  have hfresh : findFs w₁ (output_dir ++ [sn]) = none := by
    cases hx : findFs w₁ (output_dir ++ [sn]) with
    | none => rfl
    | some e =>
      exact ((hscl (output_dir ++ [sn], e) (mem_of_findFs w₁ _ e hx))
        (List.prefix_refl _)).elim
  have hens : ensureDir w₁ (output_dir ++ [sn]) =
      .ok (setFs w₁ (output_dir ++ [sn]) .dir) := by
    rw [ensureDir, if_neg (show ¬(output_dir ++ [sn] = []) by simp), hfresh]
  have hmkd2 : makedirs w₁ [] (output_dir ++ [sn]) =
      .ok (setFs w₁ (output_dir ++ [sn]) .dir) := by
    rw [makedirs_append output_dir [sn] w₁ [],
      makedirs_idem output_dir w [] w₁ hmk1]
    show makedirs w₁ (resolvePath [] output_dir) [sn] =
      .ok (setFs w₁ (output_dir ++ [sn]) .dir)
    rw [hout, makedirs, hns]
    show (match ensureDir w₁ (output_dir ++ [sn]) with
      | .error w0 => Except.error w0
      | .ok w0 => makedirs w0 (output_dir ++ [sn]) []) =
      .ok (setFs w₁ (output_dir ++ [sn]) .dir)
    rw [hens]
    rfl
  have hsn' : sn = "schedule" ++
      toString ((listdirNames w₁ (resolvePath [] output_dir)).length + 1) := by
    rw [hout]
    exact hsn
  have e0 : expand_to_dir a template w output_dir =
      (match makedirs w₁ [] (output_dir ++ [sn]) with
       | .error _ => Except.error ()
       | .ok w₂' => copyItems stag (resolvePath [] output_dir ++ [sn]) w₂'
           (listdirNames stag [])) := by
    rw [hsn']
    unfold expand_to_dir
    rw [hmk1, hstage]
  have hw2dir : findFs (setFs w₁ (output_dir ++ [sn]) .dir)
      (output_dir ++ [sn]) = some .dir := findFs_setFs_self w₁ _ _
  have hinv₀ : CopyInv stag (output_dir ++ [sn])
      (setFs w₁ (output_dir ++ [sn]) .dir) []
      (setFs w₁ (output_dir ++ [sn]) .dir) := by
    refine ⟨fun p hp => rfl,
      fun pe hpe hmem => absurd hmem (List.not_mem_nil _),
      fun p e hp hpre hne2 => ?_⟩
    exfalso
    rw [findFs_setFs_ne w₁ (output_dir ++ [sn]) p .dir hne2] at hp
    exact hscl (p, e) (mem_of_findFs w₁ p e hp) hpre
  obtain ⟨w', hrun, hinv'⟩ := copyItems_char stag (output_dir ++ [sn])
    (setFs w₁ (output_dir ++ [sn]) .dir) hknd hne hanc hcls hw2dir
    (listdirNames stag []) (listdirNames_nil_nodup stag hknd)
    (fun nm h => h) [] (setFs w₁ (output_dir ++ [sn]) .dir)
    (fun nm _ => List.not_mem_nil nm) hinv₀
  refine ⟨w', ?_, ?_, ?_, ?_, ?_⟩
  · rw [e0, hmkd2]
    show copyItems stag (resolvePath [] output_dir ++ [sn])
      (setFs w₁ (output_dir ++ [sn]) .dir) (listdirNames stag []) =
      Except.ok w'
    rw [hout]
    exact hrun
  · have hA := hinv'.1 (output_dir ++ [sn]) (fun hq => hq.2 rfl)
    rw [hA]
    exact hw2dir
  · intro p hp
    have hA := hinv'.1 p (fun hq => hp hq.1)
    rw [hA, findFs_setFs_ne w₁ (output_dir ++ [sn]) p .dir
      (fun hq => hp (by rw [hq]))]
  · intro pe hpe
    have hmemld : pe.1.headD "" ∈ listdirNames stag [] := by
      by_cases hlen : 2 ≤ pe.1.length
      · exact (mem_listdirNames_nil stag _).mpr
          ⟨.dir, mem_of_findFs stag _ _ (hanc pe hpe hlen)⟩
      · have hne1 := hne pe hpe
        have hsing : pe.1 = [pe.1.headD ""] := by
          apply eq_singleton_headD pe.1 hne1
          cases hl : pe.1 with
          | nil => rfl
          | cons x t =>
            cases t with
            | nil => rfl
            | cons y t' =>
              exfalso
              rw [hl] at hlen
              exact hlen (by simp)
        have hpair : ([pe.1.headD ""], pe.2) ∈ stag := by
          rw [show ([pe.1.headD ""], pe.2) = pe from by rw [← hsing]]
          exact hpe
        exact (mem_listdirNames_nil stag _).mpr ⟨pe.2, hpair⟩
    exact hinv'.2.1 pe hpe (List.mem_append_right [] hmemld)
  · intro p e hp hpre hne2
    obtain ⟨pe, hpe, heq, _⟩ := hinv'.2.2 p e hp hpre hne2
    exact ⟨pe, hpe, heq⟩

theorem claim_C8_witness :
    ∃ w', expand_to_dir aC8w (some [7]) wC8 ["out"] = .ok w' ∧
      findFs w' (["out"] ++ ["schedule3"]) = some .dir ∧
      (∀ p, ¬ (["out"] ++ ["schedule3"]) <+: p → findFs w' p = findFs wC8 p) ∧
      (∀ pe ∈ stagC8, findFs w' ((["out"] ++ ["schedule3"]) ++ pe.1) = some pe.2) ∧
      (∀ p e, findFs w' p = some e → (["out"] ++ ["schedule3"]) <+: p →
        p ≠ ["out"] ++ ["schedule3"] →
        ∃ pe ∈ stagC8, p = (["out"] ++ ["schedule3"]) ++ pe.1) :=
  claim_C8 aC8w (some [7]) wC8 wC8 stagC8 ["out"] "schedule3"
    (by decide) rfl rfl (by decide) (by decide) (by decide) (by decide)
    (by decide) (by decide)

end EWAutomate
